import Mathlib

/-!
Verification of the vg read-to-graph mapper (`src/mapper.cpp`) against its
natural-language specification.  The C++ functions under scrutiny are given
shallow embeddings as executable Lean definitions; external collaborators
(xg index distance queries, GCSA2 count and locate, the statistics helper
for standard deviation, the DP aligner) enter as explicit function
parameters, mirroring the read-only contracts the source consumes.
-/

namespace Vg

/-- Graph position as in `pos_t`: node id, offset, strand flag. -/
structure Pos where
  node_id : ℕ
  off : ℕ
  rev : Bool
deriving DecidableEq, Repr

/-- An edit record `(from_length, to_length, sequence)`. -/
structure Edit where
  from_length : ℕ
  to_length : ℕ
  seq : List Char
deriving DecidableEq, Repr

/-- A mapping: one position plus its ordered edits. -/
structure Mapping where
  position : Pos
  edits : List Edit
deriving DecidableEq, Repr

/-- Modelled from the spec: the edit taxonomy of section 3 (the `edit_is_*`
helpers live in `edit.cpp`, which is not part of the sources).  A match has
`from == to` and an empty sequence. -/
def edit_is_match (e : Edit) : Bool :=
  e.from_length == e.to_length && e.seq.isEmpty

/-- Modelled from the spec: a substitution has `from == to` and a non-empty
sequence. -/
def edit_is_sub (e : Edit) : Bool :=
  e.from_length == e.to_length && !e.seq.isEmpty

/-- Modelled from the spec: a deletion has `to == 0`. -/
def edit_is_deletion (e : Edit) : Bool :=
  e.to_length == 0

/-- Modelled from the spec: an insertion has `from == 0`. -/
def edit_is_insertion (e : Edit) : Bool :=
  e.from_length == 0

/-- Modelled from the spec: total `from_length` of a mapping
(`mapping_from_length` lives in `path.cpp`, which is not in the sources). -/
def mapping_from_length (m : Mapping) : ℕ :=
  (m.edits.map (·.from_length)).sum

/-- Scoring parameters of the aligner facade. -/
structure ScoreParams where
  matchScore : ℤ
  mismatch : ℤ
  gap_open : ℤ
  gap_extension : ℤ
  full_length_bonus : ℤ
deriving DecidableEq, Repr

/-! ### `Mapper::score_alignment` (mapper.cpp:5470-5544)

The canonical rescoring pass.  `graph_distance` and `approx_distance` are
the xg-index distance oracles; `qualMatchScore` stands for
`qual_adj_aligner->score_exact_match` on the substrings at a read offset,
used only when a quality string is present and quality adjustment is on
(collapsed here into the single flag `useQual`). -/

/-- Score of a single edit inside `score_alignment`; `endpoint` is true for
the first edit of the first mapping and the last edit of the last mapping
(the two positions whose insertions are opening soft clips and go
unpenalized). -/
def edit_score (P : ScoreParams) (useQual : Bool) (qualMatchScore : ℕ → ℕ → ℤ)
    (endpoint : Bool) (read_offset : ℕ) (e : Edit) : ℤ :=
  if edit_is_match e then
    (if useQual then qualMatchScore read_offset e.to_length
     else (e.from_length : ℤ) * P.matchScore)
  else if edit_is_sub e then -(P.mismatch * e.seq.length)
  else if edit_is_deletion e then -(P.gap_open + (e.from_length : ℤ) * P.gap_extension)
  else if edit_is_insertion e && !endpoint then
    -(P.gap_open + (e.to_length : ℤ) * P.gap_extension)
  else 0

/-- Inner edit loop of `score_alignment`: walks the edits of one mapping,
threading the read offset and accumulating the score.  `firstMapping` and
`lastMapping` say whether the enclosing mapping is first or last in the
path; `atFirstEdit` tracks `j == 0`. -/
def score_edits (P : ScoreParams) (useQual : Bool) (qualMatchScore : ℕ → ℕ → ℤ)
    (firstMapping lastMapping : Bool) :
    Bool → List Edit → ℕ → ℤ → (ℤ × ℕ)
  | _, [], off, acc => (acc, off)
  | atFirstEdit, e :: rest, off, acc =>
    let endpoint := (firstMapping && atFirstEdit) || (lastMapping && rest.isEmpty)
    score_edits P useQual qualMatchScore firstMapping lastMapping
      false rest (off + e.to_length)
      (acc + edit_score P useQual qualMatchScore endpoint off e)

/-- Inter-mapping jump penalty of `score_alignment`: the graph distance
between the end of one mapping and the start of the next, falling back to
the absolute approximate distance when the search returns its maximum
(`dist == aln.sequence().size()`), penalized as a deletion when positive. -/
def jump_penalty (P : ScoreParams) (graph_distance : Pos → Pos → ℕ → ℕ)
    (approx_distance : Pos → Pos → ℤ) (seqLen : ℕ) (m m2 : Mapping) : ℤ :=
  let last_pos : Pos := { m.position with off := m.position.off + mapping_from_length m }
  let next_pos : Pos := m2.position
  let dist0 := graph_distance last_pos next_pos seqLen
  let dist : ℤ := if dist0 = seqLen then |approx_distance last_pos next_pos| else (dist0 : ℤ)
  if 0 < dist then -(P.gap_open + dist * P.gap_extension) else 0

/-- Outer mapping loop of `score_alignment`. -/
def score_mappings (P : ScoreParams) (graph_distance : Pos → Pos → ℕ → ℕ)
    (approx_distance : Pos → Pos → ℤ) (useQual : Bool)
    (qualMatchScore : ℕ → ℕ → ℤ) (seqLen : ℕ) :
    List Mapping → Bool → ℕ → ℤ → ℤ
  | [], _, _, acc => acc
  | [m], firstMapping, off, acc =>
    (score_edits P useQual qualMatchScore firstMapping true true m.edits off acc).1
  | m :: m2 :: rest, firstMapping, off, acc =>
    let r := score_edits P useQual qualMatchScore firstMapping false true m.edits off acc
    score_mappings P graph_distance approx_distance useQual qualMatchScore seqLen
      (m2 :: rest) false r.2
      (r.1 + jump_penalty P graph_distance approx_distance seqLen m m2)

/-- Shallow embedding of `Mapper::score_alignment` (mapper.cpp:5470):
rescore the path from the edits and the inter-mapping jumps, clamping the
result below at zero. -/
def score_alignment (P : ScoreParams) (graph_distance : Pos → Pos → ℕ → ℕ)
    (approx_distance : Pos → Pos → ℤ) (useQual : Bool)
    (qualMatchScore : ℕ → ℕ → ℤ) (seqLen : ℕ) (path : List Mapping) : ℤ :=
  max 0 (score_mappings P graph_distance approx_distance useQual qualMatchScore seqLen
    path true 0 0)

/-! Spec-shaped restatement of the rescoring rule (section 4.5 of the
spec), used to compare the code against the specification sentence.  It
separates the per-edit sum from the per-jump sum and carries the
endpoint flags explicitly. -/

/-- Endpoint flags for the tail of an edit list: only the final edit of a
last mapping is an endpoint. -/
def flagTail (lastMapping : Bool) : List Edit → List (Bool × Edit)
  | [] => []
  | [e] => [(lastMapping, e)]
  | e :: e2 :: rest => (false, e) :: flagTail lastMapping (e2 :: rest)

/-- Endpoint flags for a whole edit list of one mapping. -/
def flagEdits (firstMapping lastMapping : Bool) : List Edit → List (Bool × Edit)
  | [] => []
  | e :: rest => (firstMapping || (lastMapping && rest.isEmpty), e) :: flagTail lastMapping rest

/-- All edits of a path, each tagged with its read-endpoint flag. -/
def pathFlaggedEdits : Bool → List Mapping → List (Bool × Edit)
  | _, [] => []
  | firstMapping, [m] => flagEdits firstMapping true m.edits
  | firstMapping, m :: m2 :: rest =>
    flagEdits firstMapping false m.edits ++ pathFlaggedEdits false (m2 :: rest)

/-- Spec-shaped score of one edit (no quality adjustment): match, mismatch,
gap open and gap extend, with endpoint insertions unpenalized. -/
def spec_edit_score (P : ScoreParams) (endpoint : Bool) (e : Edit) : ℤ :=
  if edit_is_match e then (e.from_length : ℤ) * P.matchScore
  else if edit_is_sub e then -(P.mismatch * e.seq.length)
  else if edit_is_deletion e then -(P.gap_open + (e.from_length : ℤ) * P.gap_extension)
  else if edit_is_insertion e && !endpoint then
    -(P.gap_open + (e.to_length : ℤ) * P.gap_extension)
  else 0

/-- Spec-shaped sum over all edits of a path. -/
def spec_edits_sum (P : ScoreParams) (path : List Mapping) : ℤ :=
  ((pathFlaggedEdits true path).map (fun be => spec_edit_score P be.1 be.2)).sum

/-- Spec-shaped sum of the inter-mapping jump penalties. -/
def spec_jumps_sum (P : ScoreParams) (graph_distance : Pos → Pos → ℕ → ℕ)
    (approx_distance : Pos → Pos → ℤ) (seqLen : ℕ) : List Mapping → ℤ
  | [] => 0
  | [_] => 0
  | m :: m2 :: rest =>
    jump_penalty P graph_distance approx_distance seqLen m m2
      + spec_jumps_sum P graph_distance approx_distance seqLen (m2 :: rest)

/-- Modelled from the spec: opening soft clip length at the read start
(`softclip_start` lives in `alignment.cpp`, not in the sources): the
`to_length` of a leading insertion edit. -/
def softclip_start (path : List Mapping) : ℕ :=
  match path with
  | [] => 0
  | m :: _ =>
    match m.edits with
    | [] => 0
    | e :: _ => if edit_is_insertion e then e.to_length else 0

/-- Modelled from the spec: opening soft clip length at the read end. -/
def softclip_end (path : List Mapping) : ℕ :=
  match path.getLast? with
  | none => 0
  | some m =>
    match m.edits.getLast? with
    | none => 0
    | some e => if edit_is_insertion e then e.to_length else 0

/-- The rescoring function exactly as the specification sentence describes
it: edit sum plus jump penalties plus the full-length bonus once per end of
the read that is not soft-clipped. -/
def rescore_spec (P : ScoreParams) (graph_distance : Pos → Pos → ℕ → ℕ)
    (approx_distance : Pos → Pos → ℤ) (seqLen : ℕ) (path : List Mapping) : ℤ :=
  spec_edits_sum P path
    + spec_jumps_sum P graph_distance approx_distance seqLen path
    + (if softclip_start path = 0 then P.full_length_bonus else 0)
    + (if softclip_end path = 0 then P.full_length_bonus else 0)

lemma edit_score_noqual (P : ScoreParams) (q : ℕ → ℕ → ℤ) (b : Bool) (off : ℕ) (e : Edit) :
    edit_score P false q b off e = spec_edit_score P b e := by
  simp only [edit_score, spec_edit_score, Bool.false_eq_true, if_false]

lemma score_edits_tail (P : ScoreParams) (q : ℕ → ℕ → ℤ) (fM lM : Bool)
    (es : List Edit) (off : ℕ) (acc : ℤ) :
    score_edits P false q fM lM false es off acc
      = (acc + ((flagTail lM es).map (fun be => spec_edit_score P be.1 be.2)).sum,
         off + (es.map (·.to_length)).sum) := by
  induction es generalizing off acc with
  | nil => simp [score_edits, flagTail]
  | cons e rest ih =>
    cases rest with
    | nil =>
      simp [score_edits, flagTail, edit_score_noqual]
    | cons e2 rest2 =>
      rw [score_edits, ih]
      simp [flagTail, edit_score_noqual]
      constructor
      · ring
      · omega

lemma score_edits_entry (P : ScoreParams) (q : ℕ → ℕ → ℤ) (fM lM : Bool)
    (es : List Edit) (off : ℕ) (acc : ℤ) :
    score_edits P false q fM lM true es off acc
      = (acc + ((flagEdits fM lM es).map (fun be => spec_edit_score P be.1 be.2)).sum,
         off + (es.map (·.to_length)).sum) := by
  cases es with
  | nil => simp [score_edits, flagEdits]
  | cons e rest =>
    rw [score_edits, score_edits_tail]
    simp [flagEdits, edit_score_noqual]
    constructor
    · ring
    · omega

lemma score_mappings_spec (P : ScoreParams) (gd : Pos → Pos → ℕ → ℕ)
    (ad : Pos → Pos → ℤ) (q : ℕ → ℕ → ℤ) (sl : ℕ)
    (path : List Mapping) (fM : Bool) (off : ℕ) (acc : ℤ) :
    score_mappings P gd ad false q sl path fM off acc
      = acc + ((pathFlaggedEdits fM path).map (fun be => spec_edit_score P be.1 be.2)).sum
          + spec_jumps_sum P gd ad sl path := by
  induction path generalizing fM off acc with
  | nil => simp [score_mappings, pathFlaggedEdits, spec_jumps_sum]
  | cons m rest ih =>
    cases rest with
    | nil =>
      rw [show score_mappings P gd ad false q sl [m] fM off acc
            = (score_edits P false q fM true true m.edits off acc).1 from rfl,
          score_edits_entry]
      simp [pathFlaggedEdits, spec_jumps_sum]
    | cons m2 rest2 =>
      rw [show score_mappings P gd ad false q sl (m :: m2 :: rest2) fM off acc
            = score_mappings P gd ad false q sl (m2 :: rest2) false
                (score_edits P false q fM false true m.edits off acc).2
                ((score_edits P false q fM false true m.edits off acc).1
                  + jump_penalty P gd ad sl m m2) from rfl,
          ih, score_edits_entry]
      simp [pathFlaggedEdits, spec_jumps_sum]
      ring

/-- C10: `score_alignment` clamps the accumulated score below at zero, so
the canonical rescore of any alignment is never negative. -/
theorem mapper_C10_score_alignment_nonneg (P : ScoreParams)
    (gd : Pos → Pos → ℕ → ℕ) (ad : Pos → Pos → ℤ) (useQual : Bool)
    (q : ℕ → ℕ → ℤ) (sl : ℕ) (path : List Mapping) :
    0 ≤ score_alignment P gd ad useQual q sl path :=
  le_max_left 0 _

/-- C3 counterexample: on a four-base perfect-match alignment with the
default scoring parameters, `score_alignment` returns 4 while the
specification's rescore (which adds the full-length bonus once per
un-soft-clipped end) demands 4 + 5 + 5 = 14: the code never adds the
full-length bonus. -/
theorem mapper_C3_counterexample :
    score_alignment ⟨1, 4, 6, 1, 5⟩ (fun _ _ m => m) (fun _ _ => 0) false
        (fun _ _ => 0) 4 [⟨⟨1, 0, false⟩, [⟨4, 4, []⟩]⟩]
      ≠ rescore_spec ⟨1, 4, 6, 1, 5⟩ (fun _ _ m => m) (fun _ _ => 0) 4
        [⟨⟨1, 0, false⟩, [⟨4, 4, []⟩]⟩] := by
  decide

/-- C3 amended: without quality adjustment, `score_alignment` equals the
spec-shaped rescore — the sum of match/mismatch/gap edit scores (endpoint
insertions unpenalized) plus the inter-mapping jump penalties — clamped
below at zero, with no full-length bonus term. -/
theorem mapper_C3_score_alignment_rescore (P : ScoreParams)
    (gd : Pos → Pos → ℕ → ℕ) (ad : Pos → Pos → ℤ) (q : ℕ → ℕ → ℤ)
    (sl : ℕ) (path : List Mapping) :
    score_alignment P gd ad false q sl path
      = max 0 (spec_edits_sum P path + spec_jumps_sum P gd ad sl path) := by
  rw [score_alignment, score_mappings_spec]
  simp [spec_edits_sum]

/-! ### `Mapper::align_banded` (mapper.cpp:2814-2901)

The segmentation and trim layout of the banded split aligner, as a pure
function of the read length and the requested band width. -/

/-- Round up to a multiple of four, as `align_banded` does for both the
band width and the segment size. -/
def roundUp4 (x : ℕ) : ℕ :=
  if x % 4 ≠ 0 then x - x % 4 + 4 else x

/-- The `while (read.sequence().size()/div > band_width) ++div;` loop.  The
fuel argument only bounds the iteration count; `bandedDiv` supplies enough
fuel for the loop to reach its exit condition. -/
def divLoop (n bw : ℕ) : ℕ → ℕ → ℕ
  | 0, d => d
  | fuel + 1, d => if bw < n / d then divLoop n bw fuel (d + 1) else d

/-- The divisor `div` chosen by `align_banded`, starting from 2. -/
def bandedDiv (n bw : ℕ) : ℕ :=
  divLoop n bw (n + 1) 2

/-- The segment size used by `align_banded`. -/
def bandedSeg (n bw0 : ℕ) : ℕ :=
  roundUp4 (n / bandedDiv n (roundUp4 bw0))

/-- One segment of the banded layout: read offset, length, and the two trim
amounts (`to_strip`) applied to its aligned result. -/
structure Band where
  start : ℕ
  len : ℕ
  strip1 : ℕ
  strip2 : ℕ
deriving DecidableEq, Repr

/-- The even-indexed band `2*i` of `align_banded`: the last one is clamped
so that it is a full `segment_size` from the read end, with the clamp
amount `addl_seq` added to its leading trim. -/
def evenBand (n div seg i : ℕ) : Band :=
  let off := i * seg
  let last_off := n - seg
  let clamped := i + 1 = div ∧ last_off < off
  let addl := if clamped then off - last_off else 0
  let start := if clamped then last_off else off
  let len := if i + 1 = div then n - start else min seg (n - start)
  ⟨start, len, if i = 0 then 0 else seg / 4 + addl, if i + 1 = div then 0 else seg / 4⟩

/-- The odd-indexed band `2*i+1` of `align_banded`, offset half a segment
into band `2*i`.  Its trailing trim is computed in `size_t` arithmetic in
the source, `segment_size/4 - (segment_size - aln.sequence().size())`,
rendered here with the explicit wrap modulo `2^64`. -/
def oddBand (n seg i : ℕ) : Band :=
  let start := i * seg + seg / 2
  let len := min seg (n - start)
  ⟨start, len, seg / 4, (seg / 4 + 2 ^ 64 - (seg - len)) % 2 ^ 64⟩

/-- The full band layout produced by `align_banded`: each `i < div - 1`
contributes the even band `2*i` and the odd band `2*i+1`, and `i = div - 1`
contributes only the final even band. -/
def align_banded_layout (n bw0 : ℕ) : List Band :=
  ((List.range (bandedDiv n (roundUp4 bw0) - 1)).flatMap
      (fun i => [evenBand n (bandedDiv n (roundUp4 bw0)) (bandedSeg n bw0) i,
                 oddBand n (bandedSeg n bw0) i]))
    ++ [evenBand n (bandedDiv n (roundUp4 bw0)) (bandedSeg n bw0)
          (bandedDiv n (roundUp4 bw0) - 1)]

lemma roundUp4_mod (x : ℕ) : roundUp4 x % 4 = 0 := by
  unfold roundUp4
  split
  · omega
  · omega

lemma divLoop_spec (n bw : ℕ) : ∀ fuel d, n / (d + fuel) ≤ bw →
    (n / divLoop n bw fuel d ≤ bw ∧ d ≤ divLoop n bw fuel d
      ∧ ∀ e, d ≤ e → e < divLoop n bw fuel d → bw < n / e) := by
  intro fuel
  induction fuel with
  | zero =>
    intro d h
    simp only [divLoop]
    exact ⟨by simpa using h, le_refl d, fun e he1 he2 => absurd (lt_of_le_of_lt he1 he2) (lt_irrefl d)⟩
  | succ fuel ih =>
    intro d h
    by_cases hc : bw < n / d
    · have h' : n / (d + 1 + fuel) ≤ bw := by
        have : d + 1 + fuel = d + (fuel + 1) := by omega
        rw [this]; exact h
      have := ih (d + 1) h'
      refine ⟨?_, ?_, ?_⟩
      · simpa [divLoop, hc] using this.1
      · have := this.2.1
        simp only [divLoop, hc, if_true]
        omega
      · intro e he1 he2
        simp only [divLoop, hc, if_true] at he2
        rcases Nat.eq_or_lt_of_le he1 with rfl | hlt
        · exact hc
        · exact this.2.2 e hlt he2
    · refine ⟨by simpa [divLoop, hc] using Nat.le_of_not_lt hc, ?_, ?_⟩
      · simp [divLoop, hc]
      · intro e he1 he2
        simp only [divLoop, hc, if_false] at he2
        exact absurd (lt_of_le_of_lt he1 he2) (lt_irrefl d)

lemma bandedDiv_spec (n bw : ℕ) :
    n / bandedDiv n bw ≤ bw ∧ 2 ≤ bandedDiv n bw
      ∧ ∀ e, 2 ≤ e → e < bandedDiv n bw → bw < n / e := by
  have h : n / (2 + (n + 1)) ≤ bw := by
    have : n / (2 + (n + 1)) = 0 := Nat.div_eq_of_lt (by omega)
    omega
  exact divLoop_spec n bw (n + 1) 2 h

lemma pairs_flatMap_length (f g : ℕ → Band) (k : ℕ) :
    ((List.range k).flatMap (fun i => [f i, g i])).length = 2 * k := by
  induction k with
  | zero => simp
  | succ k ih =>
    rw [List.range_succ, List.flatMap_append, List.length_append, ih]
    simp
    omega

lemma pairs_flatMap_get (f g : ℕ → Band) (k : ℕ) :
    ∀ i, i < k →
      ((List.range k).flatMap (fun i => [f i, g i]))[2 * i]? = some (f i)
      ∧ ((List.range k).flatMap (fun i => [f i, g i]))[2 * i + 1]? = some (g i) := by
  induction k with
  | zero => intro i h; omega
  | succ k ih =>
    intro i h
    rw [List.range_succ, List.flatMap_append]
    have hlen : ((List.range k).flatMap (fun i => [f i, g i])).length = 2 * k :=
      pairs_flatMap_length f g k
    rcases Nat.lt_or_ge i k with hik | hik
    · constructor
      · rw [List.getElem?_append, if_pos (by omega)]
        exact (ih i hik).1
      · rw [List.getElem?_append, if_pos (by omega)]
        exact (ih i hik).2
    · have hik' : i = k := by omega
      subst hik'
      constructor
      · rw [List.getElem?_append, if_neg (by omega), hlen,
            show 2 * i - 2 * i = 0 from by omega]
        rfl
      · rw [List.getElem?_append, if_neg (by omega), hlen,
            show 2 * i + 1 - 2 * i = 1 from by omega]
        rfl

/-- C4 counterexample: for a read of length 1025 and band width 256, the
code's divisor loop (floor division) stops at `div = 4`, although
`ceil(1025/4) = 257 > 256`; the least divisor in the claim's sense
(`ceil(1025/div) ≤ 256`) would be 5.  The claim's description of how `div`
is chosen does not match the code. -/
theorem mapper_C4_counterexample :
    bandedDiv 1025 (roundUp4 256) = 4
      ∧ 256 < (1025 + 4 - 1) / 4
      ∧ (1025 + 5 - 1) / 5 ≤ 256 := by
  decide

/-- C4 amended: for a read longer than the (4-rounded) band width, the
banded split aligner picks `div` as the least integer at least 2 with
`floor(read_length / div) ≤ band_width` (band width first rounded up to a
multiple of 4), rounds the segment size up to a multiple of 4, lays out
exactly `2·div − 1` overlapping segments (odd bands offset half a segment
into their even neighbours), and trims `segment_size/4` on every side that
faces an adjacent segment — except that the final even band adds its clamp
amount to the leading trim and the final odd band subtracts its length
shortfall from the trailing trim, as recorded in `evenBand`/`oddBand`. -/
theorem mapper_C4_banded_layout (n bw0 : ℕ) (h : roundUp4 bw0 < n) :
    (n / bandedDiv n (roundUp4 bw0) ≤ roundUp4 bw0
      ∧ 2 ≤ bandedDiv n (roundUp4 bw0)
      ∧ ∀ e, 2 ≤ e → e < bandedDiv n (roundUp4 bw0) → roundUp4 bw0 < n / e)
    ∧ bandedSeg n bw0 % 4 = 0
    ∧ (align_banded_layout n bw0).length = 2 * bandedDiv n (roundUp4 bw0) - 1
    ∧ (∀ i, i < bandedDiv n (roundUp4 bw0) - 1 →
        (align_banded_layout n bw0)[2 * i]?
          = some (evenBand n (bandedDiv n (roundUp4 bw0)) (bandedSeg n bw0) i)
        ∧ (align_banded_layout n bw0)[2 * i + 1]?
          = some (oddBand n (bandedSeg n bw0) i))
    ∧ (align_banded_layout n bw0)[2 * (bandedDiv n (roundUp4 bw0) - 1)]?
        = some (evenBand n (bandedDiv n (roundUp4 bw0)) (bandedSeg n bw0)
            (bandedDiv n (roundUp4 bw0) - 1))
    ∧ (∀ div seg i, 0 < i → i + 1 < div →
        (evenBand n div seg i).strip1 = seg / 4 ∧ (evenBand n div seg i).strip2 = seg / 4)
    ∧ (∀ div seg, 2 ≤ div →
        (evenBand n div seg 0).strip1 = 0 ∧ (evenBand n div seg 0).strip2 = seg / 4)
    ∧ (∀ div seg, 1 ≤ div → (evenBand n div seg (div - 1)).strip2 = 0)
    ∧ (∀ seg i, (oddBand n seg i).strip1 = seg / 4) := by
  have hspec := bandedDiv_spec n (roundUp4 bw0)
  have hlen : ((List.range (bandedDiv n (roundUp4 bw0) - 1)).flatMap
      (fun i => [evenBand n (bandedDiv n (roundUp4 bw0)) (bandedSeg n bw0) i,
                 oddBand n (bandedSeg n bw0) i])).length
      = 2 * (bandedDiv n (roundUp4 bw0) - 1) := pairs_flatMap_length _ _ _
  refine ⟨hspec, roundUp4_mod _, ?_, ?_, ?_, ?_, ?_, ?_, ?_⟩
  · rw [align_banded_layout, List.length_append, hlen]
    simp only [List.length_singleton]
    omega
  · intro i hi
    have hget := pairs_flatMap_get
      (fun j => evenBand n (bandedDiv n (roundUp4 bw0)) (bandedSeg n bw0) j)
      (fun j => oddBand n (bandedSeg n bw0) j)
      (bandedDiv n (roundUp4 bw0) - 1) i hi
    rw [align_banded_layout]
    constructor
    · rw [List.getElem?_append, if_pos (by rw [hlen]; omega)]
      exact hget.1
    · rw [List.getElem?_append, if_pos (by rw [hlen]; omega)]
      exact hget.2
  · rw [align_banded_layout]
    rw [List.getElem?_append, if_neg (by rw [hlen]; omega), hlen,
        Nat.sub_self]
    rfl
  · intro div seg i h0 hdiv
    unfold evenBand
    constructor
    · simp only
      split_ifs <;> omega
    · simp only
      split_ifs <;> omega
  · intro div seg hdiv
    unfold evenBand
    constructor
    · simp only
      split_ifs <;> omega
    · simp only
      split_ifs <;> omega
  · intro div seg hdiv
    unfold evenBand
    simp only
    split_ifs <;> omega
  · intro seg i
    rfl

/-- C4 witness: the amended layout facts at read length 1025 and band
width 256 (the code's divisor there is 4, so there are 7 bands). -/
theorem mapper_C4_witness :
    (align_banded_layout 1025 256).length = 2 * bandedDiv 1025 (roundUp4 256) - 1 :=
  (mapper_C4_banded_layout 1025 256 (by decide)).2.2.1

/-! ### `Mapper::record_fragment_configuration` (mapper.cpp:2581-2624)

The online fragment model.  The `stdev` helper is a statistics utility
outside the sources and enters as the parameter `stdevFn`; the
`fragment_size` field's declaration is likewise outside the sources and is
modelled from the spec as an exact rational. -/

/-- One recorded perfect-pair observation: the signed fragment length and
the strands of the two mates' first mappings. -/
structure FragSample where
  len : ℤ
  aln1_is_rev : Bool
  aln2_is_rev : Bool
deriving DecidableEq, Repr

/-- Fragment-model configuration. -/
structure FragParams where
  fragment_length_cache_size : ℕ
  fragment_length_estimate_interval : ℕ
  fragment_sigma : ℚ
deriving DecidableEq, Repr

/-- The mutable fragment-model fields of `Mapper`. -/
structure FragState where
  fragment_lengths : List ℤ
  fragment_orientations : List Bool
  fragment_directions : List Bool
  cached_fragment_length_mean : ℚ
  cached_fragment_length_stdev : ℚ
  cached_fragment_orientation : Bool
  cached_fragment_direction : Bool
  fragment_size : ℚ
  since_last_fragment_length_estimate : ℕ
deriving DecidableEq, Repr

/-- The constructor defaults of the fragment model fields
(mapper.cpp:44-53). -/
def initFragState : FragState :=
  ⟨[], [], [], 0, 0, false, true, 0, 0⟩

/-- `push_front` onto a deque bounded by the cache size (`pop_back` when it
overflows). -/
def pushCap {α : Type} (cap : ℕ) (x : α) (l : List α) : List α :=
  if cap < (x :: l).length then (x :: l).dropLast else x :: l

/-- `fragment_length_mean`: accumulate and divide by the size. -/
def meanQ (l : List ℤ) : ℚ :=
  (l.map (fun z => (z : ℚ))).sum / l.length

/-- `fragment_orientation` / `fragment_direction`: strict majority of true
entries. -/
def majority (l : List Bool) : Bool :=
  l.count false < l.count true

/-- The `same_direction` if-chain of `record_fragment_configuration`
(mapper.cpp:2593-2604); the final `assert(false)` branch is unreachable. -/
def same_direction_of (a1rev : Bool) (len : ℤ) : Bool :=
  if a1rev && decide (len ≤ 0) then true
  else if !a1rev && decide (0 ≤ len) then true
  else if a1rev && decide (0 ≤ len) then false
  else false

/-- Shallow embedding of `Mapper::record_fragment_configuration`: push the
orientation, direction and absolute length onto the capped deques, bump the
counter, and on overflow of the estimate interval recompute every cached
statistic and set `fragment_size = mean + fragment_sigma * stdev`. -/
def record_fragment_configuration (P : FragParams) (stdevFn : List ℤ → ℚ)
    (s : FragState) (x : FragSample) : FragState :=
  let orients := pushCap P.fragment_length_cache_size
    (x.aln1_is_rev == x.aln2_is_rev) s.fragment_orientations
  let dirs := pushCap P.fragment_length_cache_size
    (same_direction_of x.aln1_is_rev x.len) s.fragment_directions
  let lens := pushCap P.fragment_length_cache_size |x.len| s.fragment_lengths
  let counter := s.since_last_fragment_length_estimate + 1
  if P.fragment_length_estimate_interval < counter then
    { fragment_lengths := lens
      fragment_orientations := orients
      fragment_directions := dirs
      cached_fragment_length_mean := meanQ lens
      cached_fragment_length_stdev := stdevFn lens
      cached_fragment_orientation := majority orients
      cached_fragment_direction := majority dirs
      fragment_size := meanQ lens + P.fragment_sigma * stdevFn lens
      since_last_fragment_length_estimate := 1 }
  else
    { s with
      fragment_lengths := lens
      fragment_orientations := orients
      fragment_directions := dirs
      since_last_fragment_length_estimate := counter }

/-- Fold a list of recorded samples from the constructor state. -/
def applyRecords (P : FragParams) (stdevFn : List ℤ → ℚ)
    (xs : List FragSample) : FragState :=
  xs.foldl (record_fragment_configuration P stdevFn) initFragState

lemma succ_mod_char (L I : ℕ) (hI : 0 < I) (hL : 0 < L) :
    L % I = if (L - 1) % I = I - 1 then 0 else (L - 1) % I + 1 := by
  have h1 : L = (L - 1) + 1 := by omega
  rw [h1, Nat.add_mod]
  simp only [Nat.add_sub_cancel]
  by_cases hI1 : I = 1
  · subst hI1
    simp [Nat.mod_one]
  · have h1I : 1 % I = 1 := Nat.mod_eq_of_lt (by omega)
    rw [h1I]
    have halt : (L - 1) % I < I := Nat.mod_lt _ hI
    by_cases hc : (L - 1) % I = I - 1
    · rw [if_pos hc, hc, show I - 1 + 1 = I from by omega, Nat.mod_self]
    · rw [if_neg hc, Nat.mod_eq_of_lt (by omega)]

lemma since_last_applyRecords (P : FragParams) (f : List ℤ → ℚ)
    (hI : 0 < P.fragment_length_estimate_interval) (xs : List FragSample) :
    (applyRecords P f xs).since_last_fragment_length_estimate
      = if xs.length = 0 then 0
        else (xs.length - 1) % P.fragment_length_estimate_interval + 1 := by
  induction xs using List.reverseRecOn with
  | nil => rfl
  | append_singleton xs x ih =>
    rw [applyRecords, List.foldl_append]
    have hfold : xs.foldl (record_fragment_configuration P f) initFragState
        = applyRecords P f xs := rfl
    rw [List.foldl_cons, List.foldl_nil, hfold]
    set I := P.fragment_length_estimate_interval with hIdef
    rw [record_fragment_configuration]
    by_cases h0 : xs.length = 0
    · have hx : xs = [] := List.length_eq_zero.mp h0
      subst hx
      simp only [applyRecords, List.foldl_nil, initFragState]
      rw [if_neg (by omega)]
      simp
    · rw [ih]
      rw [if_neg h0]
      have hlen1 : 0 < xs.length := Nat.pos_of_ne_zero h0
      have hchar := succ_mod_char xs.length I hI hlen1
      set a := (xs.length - 1) % I with hadef
      set b := xs.length % I with hbdef
      have hmod : a < I := Nat.mod_lt _ hI
      by_cases hc : a = I - 1
      · rw [if_pos (by omega)]
        simp only [List.length_append, List.length_singleton]
        rw [if_neg (by omega)]
        rw [if_pos hc] at hchar
        simp only [Nat.add_sub_cancel]
        rw [← hbdef]
        omega
      · rw [if_neg (by omega)]
        simp only [List.length_append, List.length_singleton]
        rw [if_neg (by omega)]
        rw [if_neg hc] at hchar
        simp only [Nat.add_sub_cancel]
        rw [← hbdef]
        omega

/-- C5: the fragment model keeps `fragment_size = 0` before any perfect
pair is recorded; the cached statistics are recomputed exactly once per
`fragment_length_estimate_interval` recorded samples (the event at sample
`n+1` fires iff `n` is a positive multiple of the interval); at each event
`fragment_size` is set to the mean of the buffered lengths plus
`fragment_sigma` times their standard deviation, and the cached mean,
stdev, majority orientation and majority direction are refreshed together;
between events all cached values are unchanged. -/
theorem mapper_C5_fragment_model (P : FragParams) (f : List ℤ → ℚ)
    (hI : 0 < P.fragment_length_estimate_interval)
    (xs : List FragSample) (x : FragSample) :
    (applyRecords P f []).fragment_size = 0
    ∧ (P.fragment_length_estimate_interval
          < (applyRecords P f xs).since_last_fragment_length_estimate + 1
        ↔ (xs.length % P.fragment_length_estimate_interval = 0 ∧ 1 ≤ xs.length))
    ∧ (∀ s : FragState,
        let t := record_fragment_configuration P f s x
        if P.fragment_length_estimate_interval
            < s.since_last_fragment_length_estimate + 1 then
          t.fragment_size
              = meanQ t.fragment_lengths + P.fragment_sigma * f t.fragment_lengths
            ∧ t.cached_fragment_length_mean = meanQ t.fragment_lengths
            ∧ t.cached_fragment_length_stdev = f t.fragment_lengths
            ∧ t.cached_fragment_orientation = majority t.fragment_orientations
            ∧ t.cached_fragment_direction = majority t.fragment_directions
            ∧ t.since_last_fragment_length_estimate = 1
        else
          t.fragment_size = s.fragment_size
            ∧ t.cached_fragment_length_mean = s.cached_fragment_length_mean
            ∧ t.cached_fragment_length_stdev = s.cached_fragment_length_stdev
            ∧ t.cached_fragment_orientation = s.cached_fragment_orientation
            ∧ t.cached_fragment_direction = s.cached_fragment_direction
            ∧ t.since_last_fragment_length_estimate
                = s.since_last_fragment_length_estimate + 1) := by
  refine ⟨rfl, ?_, ?_⟩
  · rw [since_last_applyRecords P f hI]
    by_cases h0 : xs.length = 0
    · rw [if_pos h0]
      constructor
      · intro hlt
        exact absurd hlt (by omega)
      · intro hand
        rw [h0] at hand
        exact absurd hand.2 (by omega)
    · rw [if_neg h0]
      have hlen1 : 0 < xs.length := Nat.pos_of_ne_zero h0
      have hchar := succ_mod_char xs.length P.fragment_length_estimate_interval hI hlen1
      set I := P.fragment_length_estimate_interval with hIdef
      set a := (xs.length - 1) % I with hadef
      set b := xs.length % I with hbdef
      have hmod : a < I := Nat.mod_lt _ hI
      by_cases hc : a = I - 1
      · rw [if_pos hc] at hchar
        constructor
        · intro _
          exact ⟨hchar, hlen1⟩
        · intro _
          omega
      · rw [if_neg hc] at hchar
        constructor
        · intro hlt
          exact absurd hlt (by omega)
        · intro hand
          omega
  · intro s
    by_cases hc : P.fragment_length_estimate_interval
        < s.since_last_fragment_length_estimate + 1
    · simp only [record_fragment_configuration, hc, if_true]
      exact ⟨trivial, trivial, trivial, trivial, trivial, trivial⟩
    · simp only [record_fragment_configuration, hc, if_false]
      exact ⟨trivial, trivial, trivial, trivial, trivial, trivial⟩

/-- C5 witness: the theorem instantiated with the default configuration
(cache 1000, interval 10, sigma 4), a constant-zero stdev helper, ten
recorded samples and one more incoming sample. -/
theorem mapper_C5_witness :
    (applyRecords ⟨1000, 10, 4⟩ (fun _ => 0) []).fragment_size = 0 :=
  (mapper_C5_fragment_model ⟨1000, 10, 4⟩ (fun _ => 0) (by decide)
    (List.replicate 10 ⟨100, false, false⟩) ⟨100, false, false⟩).1

/-! ### The single-read chain transition weight (mapper.cpp:2211-2266)

`transition_weight` inside `mems_pos_clusters_to_alignments`, over MEMs
restricted to a single graph position.  The sentinel
`-numeric_limits<double>::max()` for an impossible transition is rendered
as `⊥` in `WithBot ℚ`. -/

/-- A MEM instance as the chain model sees it: read interval, fragment tag,
its single graph position (`nodes.front()`), and the hit count. -/
structure MemLite where
  beginOff : ℕ
  endOff : ℕ
  fragment : ℕ
  pos : Pos
  match_count : ℕ
deriving DecidableEq, Repr

/-- `MaximalExactMatch::length`: `end - begin`. -/
def memLength (m : MemLite) : ℤ :=
  (m.endOff : ℤ) - m.beginOff

/-- `mems_overlap` (mapper.cpp:2089): same fragment and not completely
separated. -/
def mems_overlap (m1 m2 : MemLite) : Bool :=
  m1.fragment == m2.fragment
    && !(decide (m1.endOff ≤ m2.beginOff) || decide (m2.endOff ≤ m1.beginOff))

/-- `mems_overlap_length` (mapper.cpp:2097). -/
def mems_overlap_length (m1 m2 : MemLite) : ℤ :=
  if !(mems_overlap m1 m2) then 0
  else if m1.beginOff < m2.beginOff then
    (if m1.endOff < m2.endOff then (m2.endOff : ℤ) - m1.beginOff
     else (m1.endOff : ℤ) - m1.beginOff)
  else
    (if m2.endOff < m1.endOff then (m1.endOff : ℤ) - m2.beginOff
     else (m2.endOff : ℤ) - m2.beginOff)

/-- `Mapper::approx_position` (mapper.cpp:4666): linear coordinate of the
forward-strand version of a position; `nodeStart` and `nodeLen` are the xg
index oracles. -/
def approx_position (nodeStart : ℕ → ℤ) (nodeLen : ℕ → ℕ) (p : Pos) : ℤ :=
  if p.rev then nodeStart p.node_id + ((nodeLen p.node_id : ℤ) - p.off)
  else nodeStart p.node_id + p.off

/-- `Mapper::approx_distance` (mapper.cpp:4674). -/
def approx_distance (nodeStart : ℕ → ℤ) (nodeLen : ℕ → ℕ) (p1 p2 : Pos) : ℤ :=
  approx_position nodeStart nodeLen p1 - approx_position nodeStart nodeLen p2

/-- Shallow embedding of the single-read `transition_weight` lambda
(mapper.cpp:2211-2266).  `maxLength` is `aln.sequence().size()`. -/
def transition_weight (matchScore gap_open gap_extension : ℤ) (maxLength : ℕ)
    (nodeStart : ℕ → ℤ) (nodeLen : ℕ → ℕ) (m1 m2 : MemLite) : WithBot ℚ :=
  let unique_coverage : ℤ := memLength m1 + memLength m2 - mems_overlap_length m1 m2
  let uniqueness : ℚ := 2 / ((m1.match_count : ℚ) + m2.match_count)
  let approx_dist : ℤ := |approx_distance nodeStart nodeLen m1.pos m2.pos|
  if (maxLength : ℤ) < approx_dist then ⊥
  else if approx_dist = maxLength then ⊥
  else if m1.pos.rev ≠ m2.pos.rev then ⊥
  else
    let jump : ℤ := |(m2.beginOff : ℤ) - m1.beginOff - approx_dist|
    if jump ≠ 0 then
      (((unique_coverage : ℚ) * matchScore * uniqueness
          - ((gap_open : ℚ) + (jump : ℚ) * gap_extension) : ℚ) : WithBot ℚ)
    else (((unique_coverage : ℚ) * matchScore * uniqueness : ℚ) : WithBot ℚ)

/-- The transition weight exactly as the claim states it: `-∞` only when
the distance strictly exceeds `max_length` or the strands disagree. -/
def transition_weight_claim (matchScore gap_open gap_extension : ℤ) (maxLength : ℕ)
    (nodeStart : ℕ → ℤ) (nodeLen : ℕ → ℕ) (m1 m2 : MemLite) : WithBot ℚ :=
  let unique_coverage : ℤ := memLength m1 + memLength m2 - mems_overlap_length m1 m2
  let uniqueness : ℚ := 2 / ((m1.match_count : ℚ) + m2.match_count)
  let approx_dist : ℤ := |approx_distance nodeStart nodeLen m1.pos m2.pos|
  if (maxLength : ℤ) < approx_dist then ⊥
  else if m1.pos.rev ≠ m2.pos.rev then ⊥
  else
    let jump : ℤ := |(m2.beginOff : ℤ) - m1.beginOff - approx_dist|
    if jump ≠ 0 then
      (((unique_coverage : ℚ) * matchScore * uniqueness
          - ((gap_open : ℚ) + (jump : ℚ) * gap_extension) : ℚ) : WithBot ℚ)
    else (((unique_coverage : ℚ) * matchScore * uniqueness : ℚ) : WithBot ℚ)

/-- The transition weight as amended: `-∞` as soon as the distance is at
least `max_length` (the code rejects equality as "could not find distance")
or the strands disagree, else the coverage-times-uniqueness formula with
the gap penalty for a non-zero jump. -/
def transition_weight_amended (matchScore gap_open gap_extension : ℤ) (maxLength : ℕ)
    (nodeStart : ℕ → ℤ) (nodeLen : ℕ → ℕ) (m1 m2 : MemLite) : WithBot ℚ :=
  let unique_coverage : ℤ := memLength m1 + memLength m2 - mems_overlap_length m1 m2
  let uniqueness : ℚ := 2 / ((m1.match_count : ℚ) + m2.match_count)
  let approx_dist : ℤ := |approx_distance nodeStart nodeLen m1.pos m2.pos|
  if (maxLength : ℤ) ≤ approx_dist ∨ m1.pos.rev ≠ m2.pos.rev then ⊥
  else
    let jump : ℤ := |(m2.beginOff : ℤ) - m1.beginOff - approx_dist|
    if jump ≠ 0 then
      (((unique_coverage : ℚ) * matchScore * uniqueness
          - ((gap_open : ℚ) + (jump : ℚ) * gap_extension) : ℚ) : WithBot ℚ)
    else (((unique_coverage : ℚ) * matchScore * uniqueness : ℚ) : WithBot ℚ)

/-- C6 counterexample: two single-hit MEMs on the same strand at
approximate distance exactly `max_length = 10`.  The code returns the
`-∞` sentinel ("couldn't find distance"), while the claim's formula — which
only rejects distances strictly greater than `max_length` — produces the
finite weight `10·1·1 − (6 + 5·1) = −1`. -/
theorem mapper_C6_counterexample :
    transition_weight 1 6 1 10 (fun id => if id = 1 then 0 else 10) (fun _ => 16)
        ⟨0, 5, 1, ⟨1, 0, false⟩, 1⟩ ⟨5, 10, 1, ⟨2, 0, false⟩, 1⟩
      ≠ transition_weight_claim 1 6 1 10 (fun id => if id = 1 then 0 else 10) (fun _ => 16)
        ⟨0, 5, 1, ⟨1, 0, false⟩, 1⟩ ⟨5, 10, 1, ⟨2, 0, false⟩, 1⟩ := by
  decide

/-- C6 amended: the single-read transition weight is `-∞` exactly when the
approximate distance reaches `max_length` or the strands disagree, and is
otherwise `unique_coverage · match · uniqueness`, minus
`gap_open + jump · gap_extend` when the jump is non-zero, with
`jump = |(m2.begin − m1.begin) − distance|`,
`unique_coverage = len(m1) + len(m2) − overlap` and
`uniqueness = 2 / (m1.match_count + m2.match_count)`. -/
theorem mapper_C6_transition_weight (matchScore gap_open gap_extension : ℤ)
    (maxLength : ℕ) (nodeStart : ℕ → ℤ) (nodeLen : ℕ → ℕ) (m1 m2 : MemLite) :
    transition_weight matchScore gap_open gap_extension maxLength nodeStart nodeLen m1 m2
      = transition_weight_amended matchScore gap_open gap_extension maxLength
          nodeStart nodeLen m1 m2 := by
  unfold transition_weight transition_weight_amended
  set d := |approx_distance nodeStart nodeLen m1.pos m2.pos| with hd
  by_cases h1 : (maxLength : ℤ) < d
  · rw [if_pos h1, if_pos (Or.inl (le_of_lt h1))]
  · rw [if_neg h1]
    by_cases h2 : d = maxLength
    · rw [if_pos h2, if_pos (Or.inl (le_of_eq h2.symm))]
    · rw [if_neg h2]
      by_cases h3 : m1.pos.rev ≠ m2.pos.rev
      · rw [if_pos h3, if_pos (Or.inr h3)]
      · have hcond : ¬((maxLength : ℤ) ≤ d ∨ m1.pos.rev ≠ m2.pos.rev) := by
          push_neg
          exact ⟨by omega, not_not.mp h3⟩
        rw [if_neg h3, if_neg hcond]

/-! ### The MEM fill stage of `Mapper::find_mems_deep` (mapper.cpp:4032-4073)

After emission, every MEM gets its `match_count` from a GCSA2 range-length
query and, when the hit cap allows, its node list from `locate`; sub-MEM
counts are first reduced by their parents' counts; finally everything is
sorted by `(begin, end)`.  `count` and `locate` are the GCSA2 oracles. -/

/-- A MEM as the fill stage sees it: read interval, suffix-index range,
match count (an `int` that parent subtraction can drive negative), and the
located graph positions. -/
structure MEMRec where
  beginOff : ℕ
  endOff : ℕ
  range : ℕ × ℕ
  match_count : ℤ
  nodes : List Pos
deriving DecidableEq, Repr

/-- The top-level MEM fill loop (mapper.cpp:4032-4040). -/
def fillTopMems (count : ℕ × ℕ → ℕ) (locate : ℕ × ℕ → List Pos) (hit_max : ℕ)
    (mems : List MEMRec) : List MEMRec :=
  mems.map fun m =>
    let c : ℤ := count m.range
    { m with
      match_count := c
      nodes := if 0 < c ∧ (hit_max = 0 ∨ c ≤ (hit_max : ℤ)) then locate m.range
               else m.nodes }

/-- The sub-MEM fill loop (mapper.cpp:4044-4059): the raw range count minus
the (already filled) parents' counts, then a plain `locate` of the whole
range under the same cap test. -/
def fillSubMems (count : ℕ × ℕ → ℕ) (locate : ℕ × ℕ → List Pos) (hit_max : ℕ)
    (mems1 : List MEMRec) (sub_mems : List (MEMRec × List ℕ)) : List MEMRec :=
  sub_mems.map fun sp =>
    let c : ℤ := (count sp.1.range : ℤ)
      - (sp.2.map (fun p => ((mems1[p]?).map (·.match_count)).getD 0)).sum
    { sp.1 with
      match_count := c
      nodes := if 0 < c ∧ (hit_max = 0 ∨ c ≤ (hit_max : ℤ)) then locate sp.1.range
               else sp.1.nodes }

/-- The `(begin, end)` comparison of the final sort (mapper.cpp:4071). -/
def memLexLe (a b : MEMRec) : Prop :=
  a.beginOff < b.beginOff ∨ (a.beginOff = b.beginOff ∧ a.endOff ≤ b.endOff)

instance : DecidableRel memLexLe := fun a b =>
  decidable_of_iff (a.beginOff < b.beginOff ∨ (a.beginOff = b.beginOff ∧ a.endOff ≤ b.endOff))
    Iff.rfl

/-- The complete fill-and-sort tail of `find_mems_deep`. -/
def find_mems_fill (count : ℕ × ℕ → ℕ) (locate : ℕ × ℕ → List Pos)
    (hit_max reseed_length : ℕ) (mems : List MEMRec)
    (sub_mems : List (MEMRec × List ℕ)) : List MEMRec :=
  let mems1 := fillTopMems count locate hit_max mems
  let all := if reseed_length ≠ 0
    then mems1 ++ fillSubMems count locate hit_max mems1 sub_mems
    else mems1
  List.insertionSort memLexLe all

/-- C9 counterexample: a parent MEM with 3 hits and a sub-MEM whose range
holds 5 hits at 5 distinct positions.  The locate oracle obeys the index
contract (`|locate r| ≤ count r`, all positions distinct), yet the emitted
sub-MEM has `match_count = 5 - 3 = 2` while its position list holds all 5
located positions: `match_count ≥ |positions|` fails for sub-MEMs. -/
theorem mapper_C9_counterexample :
    (∀ r ∈ [((0, 1) : ℕ × ℕ), (10, 11)],
        ((if r = (0, 1) then [⟨1, 0, false⟩, ⟨2, 0, false⟩, ⟨3, 0, false⟩]
          else if r = (10, 11) then
            [⟨4, 0, false⟩, ⟨5, 0, false⟩, ⟨6, 0, false⟩, ⟨7, 0, false⟩, ⟨8, 0, false⟩]
          else ([] : List Pos)).length
            ≤ (if r = (0, 1) then 3 else if r = (10, 11) then 5 else 0))
        ∧ (if r = (0, 1) then [⟨1, 0, false⟩, ⟨2, 0, false⟩, ⟨3, 0, false⟩]
           else if r = (10, 11) then
             [⟨4, 0, false⟩, ⟨5, 0, false⟩, ⟨6, 0, false⟩, ⟨7, 0, false⟩, ⟨8, 0, false⟩]
           else ([] : List Pos)).Nodup)
    ∧ ¬ (∀ m ∈ find_mems_fill
          (fun r => if r = (0, 1) then 3 else if r = (10, 11) then 5 else 0)
          (fun r => if r = (0, 1) then [⟨1, 0, false⟩, ⟨2, 0, false⟩, ⟨3, 0, false⟩]
            else if r = (10, 11) then
              [⟨4, 0, false⟩, ⟨5, 0, false⟩, ⟨6, 0, false⟩, ⟨7, 0, false⟩, ⟨8, 0, false⟩]
            else [])
          0 1
          [⟨0, 10, (0, 1), 0, []⟩]
          [(⟨2, 5, (10, 11), 0, []⟩, [0])],
          (m.nodes.length : ℤ) ≤ m.match_count) := by
  decide

/-- C9 amended: for every emitted MEM the conditional fill holds — the
position list is `locate` of its range when its (for sub-MEMs,
parent-adjusted) `match_count` is positive and within the hit cap, and
stays empty otherwise — and positions are unique; the invariant
`match_count ≥ |positions|` holds for the top-level MEMs (whose count is
the raw range length) but can fail for sub-MEMs, whose count is reduced by
the parents' counts while `locate` still fills the entire range. -/
theorem mapper_C9_mem_fill (count : ℕ × ℕ → ℕ) (locate : ℕ × ℕ → List Pos)
    (hit_max reseed_length : ℕ) (mems : List MEMRec)
    (sub_mems : List (MEMRec × List ℕ))
    (hcl : ∀ r, (locate r).length ≤ count r)
    (hnd : ∀ r, (locate r).Nodup)
    (hempty : ∀ m ∈ mems, m.nodes = [])
    (hsempty : ∀ p ∈ sub_mems, p.1.nodes = []) :
    (∀ m ∈ find_mems_fill count locate hit_max reseed_length mems sub_mems,
        ((0 < m.match_count ∧ (hit_max = 0 ∨ m.match_count ≤ (hit_max : ℤ)))
            → m.nodes = locate m.range)
        ∧ (¬(0 < m.match_count ∧ (hit_max = 0 ∨ m.match_count ≤ (hit_max : ℤ)))
            → m.nodes = [])
        ∧ m.nodes.Nodup)
    ∧ (∀ m ∈ fillTopMems count locate hit_max mems,
        (m.nodes.length : ℤ) ≤ m.match_count ∧ m.nodes.Nodup) := by
  have htop : ∀ m ∈ fillTopMems count locate hit_max mems,
      ((0 < m.match_count ∧ (hit_max = 0 ∨ m.match_count ≤ (hit_max : ℤ)))
          → m.nodes = locate m.range)
      ∧ (¬(0 < m.match_count ∧ (hit_max = 0 ∨ m.match_count ≤ (hit_max : ℤ)))
          → m.nodes = [])
      ∧ m.nodes.Nodup := by
    intro m hm
    rw [fillTopMems, List.mem_map] at hm
    obtain ⟨m0, hm0, rfl⟩ := hm
    by_cases hcond : 0 < (count m0.range : ℤ)
        ∧ (hit_max = 0 ∨ (count m0.range : ℤ) ≤ (hit_max : ℤ))
    · simp only [if_pos hcond]
      exact ⟨fun _ => trivial, fun hn => absurd hcond hn, hnd _⟩
    · simp only [if_neg hcond]
      refine ⟨fun hp => absurd hp hcond, fun _ => hempty m0 hm0, ?_⟩
      rw [hempty m0 hm0]
      exact List.nodup_nil
  have hsub : ∀ m ∈ fillSubMems count locate hit_max
      (fillTopMems count locate hit_max mems) sub_mems,
      ((0 < m.match_count ∧ (hit_max = 0 ∨ m.match_count ≤ (hit_max : ℤ)))
          → m.nodes = locate m.range)
      ∧ (¬(0 < m.match_count ∧ (hit_max = 0 ∨ m.match_count ≤ (hit_max : ℤ)))
          → m.nodes = [])
      ∧ m.nodes.Nodup := by
    intro m hm
    rw [fillSubMems, List.mem_map] at hm
    obtain ⟨sp, hsp, rfl⟩ := hm
    set c : ℤ := (count sp.1.range : ℤ)
      - (sp.2.map (fun p =>
          (((fillTopMems count locate hit_max mems)[p]?).map (·.match_count)).getD 0)).sum
      with hcdef
    by_cases hcond : 0 < c ∧ (hit_max = 0 ∨ c ≤ (hit_max : ℤ))
    · simp only [if_pos hcond]
      exact ⟨fun _ => trivial, fun hn => absurd hcond hn, hnd _⟩
    · simp only [if_neg hcond]
      refine ⟨fun hp => absurd hp hcond, fun _ => hsempty sp hsp, ?_⟩
      rw [hsempty sp hsp]
      exact List.nodup_nil
  constructor
  · intro m hm
    have hm2 := ((List.perm_insertionSort memLexLe _).mem_iff).mp hm
    by_cases hre : reseed_length ≠ 0
    · rw [if_pos hre] at hm2
      rcases List.mem_append.mp hm2 with hin | hin
      · exact htop m hin
      · exact hsub m hin
    · rw [if_neg hre] at hm2
      exact htop m hm2
  · intro m hm
    have h1 := htop m hm
    rw [fillTopMems, List.mem_map] at hm
    obtain ⟨m0, hm0, rfl⟩ := hm
    by_cases hcond : 0 < (count m0.range : ℤ)
        ∧ (hit_max = 0 ∨ (count m0.range : ℤ) ≤ (hit_max : ℤ))
    · simp only [if_pos hcond]
      constructor
      · exact_mod_cast hcl m0.range
      · exact hnd _
    · simp only [if_neg hcond]
      constructor
      · rw [hempty m0 hm0]
        simp
      · rw [hempty m0 hm0]
        exact List.nodup_nil

/-- C9 witness: the amended fill invariant applied to a single one-hit MEM
with the constant one-hit oracle. -/
theorem mapper_C9_witness :
    (((⟨0, 1, (0, 1), 1, [⟨1, 0, false⟩]⟩ : MEMRec).nodes.length : ℤ)
        ≤ (⟨0, 1, (0, 1), 1, [⟨1, 0, false⟩]⟩ : MEMRec).match_count)
      ∧ (⟨0, 1, (0, 1), 1, [⟨1, 0, false⟩]⟩ : MEMRec).nodes.Nodup :=
  (mapper_C9_mem_fill (fun _ => 1) (fun _ => [⟨1, 0, false⟩]) 0 0
      [⟨0, 1, (0, 1), 0, []⟩] []
      (fun _ => by simp) (fun _ => by simp)
      (by decide) (by decide)).2
    ⟨0, 1, (0, 1), 1, [⟨1, 0, false⟩]⟩ (by decide)

/-! ### `Mapper::align_multi` post-processing (mapper.cpp:3230-3397)

`score_sort_and_deduplicate_alignments` groups the candidate alignments by
score (a `map<int, set<Alignment*>>`, iterated in descending score order;
within one score the pointer order reproduces the candidate order),
deduplicates by serialized equality, and `filter_and_process_multimaps`
truncates and marks every alignment but the first as secondary.  The
candidate list produced by the clustering stage is the input. -/

/-- The fields of a vg `Alignment` the list-level pipeline reads or
writes; `blob` abstracts the remaining serialized protobuf content, so
record equality models serialized equality. -/
structure Aln where
  name : String
  score : ℤ
  editCount : ℕ
  secondary : Bool
  fragNext : String
  fragPrev : String
  identity : ℚ
  path : List Pos
  fragments : List (String × ℤ)
  blob : ℕ
deriving DecidableEq, Repr

/-- Deduplication against a set of already-seen records, mirroring the
`serializedAlignmentsUsed` loop: keep the first occurrence. -/
def dedupFirstAux {α : Type} [DecidableEq α] : List α → List α → List α
  | _, [] => []
  | seen, a :: l =>
    if a ∈ seen then dedupFirstAux seen l else a :: dedupFirstAux (a :: seen) l

/-- Keep the first occurrence of each distinct record. -/
def dedupFirst {α : Type} [DecidableEq α] (l : List α) : List α :=
  dedupFirstAux [] l

/-- The distinct scores of the candidates in descending order — the
reverse iteration over `map<int, set<Alignment*>> alignment_by_score`. -/
def scoresDesc (alns : List Aln) : List ℤ :=
  (List.insertionSort (fun a b : ℤ => a ≤ b) (alns.map (·.score)).dedup).reverse

/-- One score bucket: the candidates of that score in candidate order
(the pointer order of the `set<Alignment*>`), deduplicated keeping the
first copy. -/
def scoreBucket (alns : List Aln) (s : ℤ) : List Aln :=
  dedupFirst (alns.filter (fun a => a.score == s))

/-- Shallow embedding of `Mapper::score_sort_and_deduplicate_alignments`
(mapper.cpp:3230): an empty candidate list yields the unmapped original
(path cleared, score zero); otherwise the buckets are emitted in
descending score order. -/
def score_sort_and_deduplicate_alignments (original : Aln) (all_alns : List Aln) :
    List Aln :=
  if all_alns.isEmpty then [{ original with path := [], score := 0 }]
  else (scoresDesc all_alns).flatMap (scoreBucket all_alns)

/-- The `set_is_secondary(i > 0)` loop of `filter_and_process_multimaps`. -/
def markSecondary : Bool → List Aln → List Aln
  | _, [] => []
  | b, a :: l => { a with secondary := b } :: markSecondary true l

/-- Shallow embedding of `Mapper::filter_and_process_multimaps`
(mapper.cpp:3275). -/
def filter_and_process_multimaps (max_multimaps additional : ℕ) (l : List Aln) :
    List Aln :=
  markSecondary false (l.take (max_multimaps + additional))

/-- The post-processing `align_multi` applies to the candidate list
(mapper.cpp:3364-3377, unpaired path: `additional = 0`). -/
def align_multi_post (max_multimaps : ℕ) (original : Aln) (cands : List Aln) :
    List Aln :=
  filter_and_process_multimaps max_multimaps 0
    (score_sort_and_deduplicate_alignments original cands)

/-- The (reflexive closure of the) comparator of the chaining path's sort
(mapper.cpp:2373): score descending, ties by more edit operations. -/
def byScoreThenEdits (a b : Aln) : Prop :=
  b.score < a.score ∨ (a.score = b.score ∧ b.editCount ≤ a.editCount)

/-- The tie rule of the claim: among consecutive equal-score alignments the
one with more edit operations comes first. -/
def tiesByMoreEdits (l : List Aln) : Prop :=
  List.Chain' (fun a b => a.score = b.score → b.editCount ≤ a.editCount) l

lemma dedupFirstAux_sublist {α : Type} [DecidableEq α] :
    ∀ (l seen : List α), List.Sublist (dedupFirstAux seen l) l := by
  intro l
  induction l with
  | nil => intro seen; simp [dedupFirstAux]
  | cons a l ih =>
    intro seen
    rw [dedupFirstAux]
    split
    · exact (ih seen).cons a
    · exact (ih (a :: seen)).cons₂ a

lemma dedupFirst_sublist {α : Type} [DecidableEq α] (l : List α) :
    List.Sublist (dedupFirst l) l :=
  dedupFirstAux_sublist l []

lemma dedupFirst_ne_nil {α : Type} [DecidableEq α] (a : α) (l : List α) :
    dedupFirst (a :: l) ≠ [] := by
  simp [dedupFirst, dedupFirstAux]

lemma markSecondary_true_all (l : List Aln) :
    ∀ x ∈ markSecondary true l, x.secondary = true := by
  induction l with
  | nil => intro x hx; simp [markSecondary] at hx
  | cons a l ih =>
    intro x hx
    rw [markSecondary] at hx
    rcases List.mem_cons.mp hx with rfl | hx
    · rfl
    · exact ih x hx

lemma markSecondary_chain' (R : Aln → Aln → Prop)
    (hR : ∀ a b (b1 b2 : Bool), R a b
      → R { a with secondary := b1 } { b with secondary := b2 }) :
    ∀ (l : List Aln) (bb : Bool), List.Chain' R l → List.Chain' R (markSecondary bb l) := by
  intro l
  induction l with
  | nil => intro bb _; exact List.chain'_nil
  | cons a l ih =>
    intro bb h
    cases l with
    | nil => exact List.chain'_singleton _
    | cons c t =>
      have h2 := List.chain'_cons.mp h
      exact List.Chain'.cons (hR a c bb true h2.1) (ih true h2.2)

lemma scoreBucket_score (alns : List Aln) (s : ℤ) :
    ∀ x ∈ scoreBucket alns s, x.score = s := by
  intro x hx
  have hx2 : x ∈ alns.filter (fun a => a.score == s) :=
    (dedupFirst_sublist _).mem hx
  have := (List.mem_filter.mp hx2).2
  exact beq_iff_eq.mp this

lemma scoreBucket_sublist (alns : List Aln) (s : ℤ) :
    List.Sublist (scoreBucket alns s) alns :=
  (dedupFirst_sublist _).trans (List.filter_sublist _)

lemma scoresDesc_pairwise (alns : List Aln) :
    List.Pairwise (fun s t : ℤ => t < s) (scoresDesc alns) := by
  have h1 : List.Sorted (fun a b : ℤ => a ≤ b)
      (List.insertionSort (fun a b : ℤ => a ≤ b) (alns.map (·.score)).dedup) :=
    List.sorted_insertionSort _ _
  have h2 : (List.insertionSort (fun a b : ℤ => a ≤ b) (alns.map (·.score)).dedup).Nodup :=
    ((List.perm_insertionSort _ _).nodup_iff).mpr (List.nodup_dedup _)
  have h3 : List.Sorted (fun a b : ℤ => a < b)
      (List.insertionSort (fun a b : ℤ => a ≤ b) (alns.map (·.score)).dedup) :=
    List.Sorted.lt_of_le h1 h2
  rw [scoresDesc, List.pairwise_reverse]
  exact h3

lemma mem_scoresDesc (alns : List Aln) (a : Aln) (ha : a ∈ alns) :
    a.score ∈ scoresDesc alns := by
  rw [scoresDesc, List.mem_reverse]
  exact ((List.perm_insertionSort _ _).mem_iff).mpr
    (List.mem_dedup.mpr (List.mem_map_of_mem _ ha))

lemma scoreSortDedup_pairwise (orig : Aln) (alns : List Aln) (R : Aln → Aln → Prop)
    (hcross : ∀ a b : Aln, b.score < a.score → R a b)
    (hbucket : ∀ s, List.Pairwise R (scoreBucket alns s)) :
    List.Pairwise R (score_sort_and_deduplicate_alignments orig alns) := by
  rw [score_sort_and_deduplicate_alignments]
  split
  · exact List.pairwise_singleton _ _
  · rw [List.flatMap_def, List.pairwise_flatten]
    constructor
    · intro l hl
      rw [List.mem_map] at hl
      obtain ⟨s, _, rfl⟩ := hl
      exact hbucket s
    · rw [List.pairwise_map]
      refine (scoresDesc_pairwise alns).imp ?_
      intro s t hst x hx y hy
      refine hcross x y ?_
      rw [scoreBucket_score alns s x hx, scoreBucket_score alns t y hy]
      exact hst

lemma scoreSortDedup_ne_nil (orig : Aln) (alns : List Aln) :
    score_sort_and_deduplicate_alignments orig alns ≠ [] := by
  rw [score_sort_and_deduplicate_alignments]
  split
  · simp
  · rename_i hne
    cases alns with
    | nil => simp at hne
    | cons a rest =>
      intro hnil
      rw [List.flatMap_eq_nil_iff] at hnil
      have hmem := mem_scoresDesc (a :: rest) a (List.mem_cons_self a rest)
      have hzero := hnil _ hmem
      have hfil : (a :: rest).filter (fun x => x.score == a.score)
          = a :: rest.filter (fun x => x.score == a.score) :=
        List.filter_cons_of_pos (by simp)
      rw [scoreBucket, hfil] at hzero
      exact dedupFirst_ne_nil _ _ hzero

/-- C1 counterexample: two distinct candidates with equal score 5 and edit
counts 1 and 2, in the candidate order the non-chaining clustering path can
produce.  The pipeline keeps the candidate order inside the score bucket,
so the alignment with FEWER edits comes first — the claim's tie rule
("more edit operations comes first") does not hold of the returned list. -/
theorem mapper_C1_counterexample :
    ¬ tiesByMoreEdits (align_multi_post 2
        ⟨"r", 0, 0, false, "", "", 0, [], [], 0⟩
        [⟨"r", 5, 1, false, "", "", 0, [], [], 0⟩,
         ⟨"r", 5, 2, false, "", "", 0, [], [], 1⟩]) := by
  intro h
  have heq : align_multi_post 2
      ⟨"r", 0, 0, false, "", "", 0, [], [], 0⟩
      [⟨"r", 5, 1, false, "", "", 0, [], [], 0⟩,
       ⟨"r", 5, 2, false, "", "", 0, [], [], 1⟩]
      = [⟨"r", 5, 1, false, "", "", 0, [], [], 0⟩,
         ⟨"r", 5, 2, true, "", "", 0, [], [], 1⟩] := by decide
  rw [tiesByMoreEdits, heq] at h
  have := List.chain'_pair.mp h rfl
  exact absurd this (by decide)

/-- C1 amended: `align_multi`'s post-processing always returns a non-empty
list (for a positive multimap cap) whose first element is primary and
whose remaining elements are secondary, with scores monotonically
non-increasing; equal-score ties keep the candidate order, so the
"more edit operations first" tie rule holds exactly when the candidate
list already satisfies the chaining path's score-then-edits order. -/
theorem mapper_C1_align_multi (mm : ℕ) (hmm : 0 < mm) (orig : Aln)
    (cands : List Aln) :
    align_multi_post mm orig cands ≠ []
    ∧ (∀ x, (align_multi_post mm orig cands).head? = some x → x.secondary = false)
    ∧ (∀ x ∈ (align_multi_post mm orig cands).tail, x.secondary = true)
    ∧ List.Chain' (fun a b => b.score ≤ a.score) (align_multi_post mm orig cands)
    ∧ (List.Pairwise byScoreThenEdits cands →
        tiesByMoreEdits (align_multi_post mm orig cands)) := by
  obtain ⟨s0, srest, hsort⟩ :
      ∃ s0 srest, score_sort_and_deduplicate_alignments orig cands = s0 :: srest := by
    cases hs : score_sort_and_deduplicate_alignments orig cands with
    | nil => exact absurd hs (scoreSortDedup_ne_nil orig cands)
    | cons x xs => exact ⟨x, xs, rfl⟩
  obtain ⟨k, rfl⟩ : ∃ k, mm = k + 1 := ⟨mm - 1, by omega⟩
  have hpost : align_multi_post (k + 1) orig cands
      = { s0 with secondary := false }
        :: markSecondary true (srest.take k) := by
    rw [align_multi_post, filter_and_process_multimaps, hsort]
    rfl
  have htake : List.Sublist (s0 :: srest.take k) (s0 :: srest) := (srest.take_sublist k).cons₂ s0
  refine ⟨?_, ?_, ?_, ?_, ?_⟩
  · rw [hpost]; exact List.cons_ne_nil _ _
  · intro x hx
    rw [hpost] at hx
    simp only [List.head?_cons, Option.some.injEq] at hx
    rw [← hx]
  · intro x hx
    rw [hpost] at hx
    exact markSecondary_true_all _ x hx
  · have hpair := scoreSortDedup_pairwise orig cands (fun a b => b.score ≤ a.score)
      (fun a b h => le_of_lt h)
      (fun s => List.pairwise_of_forall_mem_list (fun a ha b hb => by
        rw [scoreBucket_score cands s a ha, scoreBucket_score cands s b hb]))
    rw [hsort] at hpair
    have hpair2 := hpair.sublist htake
    have hchain : List.Chain' (fun a b : Aln => b.score ≤ a.score) (s0 :: srest.take k) :=
      hpair2.chain'
    have := markSecondary_chain' (fun a b : Aln => b.score ≤ a.score)
      (fun a b b1 b2 h => h) (s0 :: srest.take k) false hchain
    rw [hpost]
    exact this
  · intro hc
    have hpair := scoreSortDedup_pairwise orig cands byScoreThenEdits
      (fun a b h => Or.inl h)
      (fun s => hc.sublist (scoreBucket_sublist cands s))
    rw [hsort] at hpair
    have hpair2 := hpair.sublist htake
    have himp : ∀ a b : Aln, byScoreThenEdits a b
        → (a.score = b.score → b.editCount ≤ a.editCount) := by
      intro a b hab hs
      rcases hab with hlt | ⟨_, hle⟩
      · omega
      · exact hle
    have hchain : List.Chain' (fun a b : Aln => a.score = b.score → b.editCount ≤ a.editCount)
        (s0 :: srest.take k) :=
      (hpair2.imp (fun hab => himp _ _ hab)).chain'
    rw [tiesByMoreEdits, hpost]
    exact markSecondary_chain' _
      (fun a b b1 b2 h => h) (s0 :: srest.take k) false hchain

/-- C1 witness: the amended invariants at `max_multimaps = 1` on a single
zero-score candidate. -/
theorem mapper_C1_witness :
    align_multi_post 1 ⟨"r", 0, 0, false, "", "", 0, [], [], 0⟩
        [⟨"r", 3, 1, false, "", "", 0, [], [], 0⟩] ≠ [] :=
  (mapper_C1_align_multi 1 (by decide) ⟨"r", 0, 0, false, "", "", 0, [], [], 0⟩
    [⟨"r", 3, 1, false, "", "", 0, [], [], 0⟩]).1

/-! ### `Mapper::alignment_mean_path_positions` (mapper.cpp:374-412) and
`Mapper::alignments_consistent` (mapper.cpp:641-663)

The per-path position summary of an alignment and the pair-consistency
test.  `pathsOf` is the path-position index oracle
(`node_positions_in_paths`), returning for each node the reference paths
(sorted by name, as a `map` iterates) with the node's occurrence offsets;
`nodeLen` is the node-length oracle.  The `idscount`/`idssum` accumulators
are deliberately NOT reset between reference paths, exactly as in the
source. -/

/-- Ascending iteration order of a `std::set<id_t>`. -/
def sortedDedupNat (l : List ℕ) : List ℕ :=
  List.insertionSort (fun a b : ℕ => a ≤ b) l.dedup

/-- Insert an id under a position key into the inner
`map<int, vector<id_t>>`. -/
def insertInner (pos idv : ℕ) : List (ℕ × List ℕ) → List (ℕ × List ℕ)
  | [] => [(pos, [idv])]
  | (p, ids) :: rest =>
    if pos < p then (pos, [idv]) :: (p, ids) :: rest
    else if pos = p then (p, ids ++ [idv]) :: rest
    else (p, ids) :: insertInner pos idv rest

/-- Insert into the outer map keyed by reference path
(`map<string, map<int, vector<id_t>>>`; path names are interned as
numbers here, an order-preserving renaming). -/
def insertOuter (nm : ℕ) (pos idv : ℕ) :
    List (ℕ × List (ℕ × List ℕ)) → List (ℕ × List (ℕ × List ℕ))
  | [] => [(nm, [(pos, [idv])])]
  | (k, inner) :: rest =>
    if nm < k then (nm, [(pos, [idv])]) :: (k, inner) :: rest
    else if nm = k then (k, insertInner pos idv inner) :: rest
    else (k, inner) :: insertOuter nm pos idv rest

/-- The `node_positions` accumulation loop, with the `first_hit_only`
break after the first id that contributed anything. -/
def buildNodePositions (pathsOf : ℕ → List (ℕ × List ℕ)) (first_hit_only : Bool) :
    List ℕ → List (ℕ × List (ℕ × List ℕ)) → List (ℕ × List (ℕ × List ℕ))
  | [], acc => acc
  | idv :: rest, acc =>
    let acc2 := (pathsOf idv).foldl
      (fun a pr => pr.2.foldl (fun a2 pos => insertOuter pr.1 pos idv a2) a) acc
    if first_hit_only && !acc2.isEmpty then acc2
    else buildNodePositions pathsOf first_hit_only rest acc2

/-- The "median" loop of `alignment_mean_path_positions`: node midpoints
(`pos + node_length/2`, integer division) summed into accumulators that
carry over from one reference path to the next. -/
def meanLoop (nodeLen : ℕ → ℕ) (ids : List ℕ) :
    List (ℕ × List (ℕ × List ℕ)) → ℕ → ℚ → List (ℕ × ℚ)
  | [], _, _ => []
  | (nm, inner) :: rest, cnt0, sum0 =>
    let st := inner.foldl (fun (st : ℕ × ℚ) pi =>
        pi.2.foldl (fun st2 n =>
          if n ∈ ids then (st2.1 + 1, st2.2 + ((pi.1 + nodeLen n / 2 : ℕ) : ℚ)) else st2) st)
      (cnt0, sum0)
    (nm, st.2 / st.1) :: meanLoop nodeLen ids rest st.1 st.2

/-- Shallow embedding of `Mapper::alignment_mean_path_positions`. -/
def alignment_mean_path_positions (pathsOf : ℕ → List (ℕ × List ℕ))
    (nodeLen : ℕ → ℕ) (first_hit_only : Bool) (aln : Aln) : List (ℕ × ℚ) :=
  let ids := sortedDedupNat (aln.path.map (·.node_id))
  meanLoop nodeLen ids (buildNodePositions pathsOf first_hit_only ids []) 0 0

/-- Association-list lookup by path name. -/
def lookupRef (nm : ℕ) : List (ℕ × ℚ) → Option ℚ
  | [] => none
  | (k, v) :: rest => if k = nm then some v else lookupRef nm rest

/-- Shallow embedding of `Mapper::alignments_consistent`: some common
reference path whose two summary positions differ by less than the
fragment-size bound. -/
def alignments_consistent (pos1 pos2 : List (ℕ × ℚ))
    (fragment_size_bound : ℕ) : Bool :=
  pos1.any (fun pr =>
    match lookupRef pr.1 pos2 with
    | some m2 => decide (|pr.2 - m2| < (fragment_size_bound : ℚ))
    | none => false)

/-- The reference-path names an alignment touches. -/
def pathNamesOf (pathsOf : ℕ → List (ℕ × List ℕ)) (aln : Aln) : List ℕ :=
  ((sortedDedupNat (aln.path.map (·.node_id))).flatMap
    (fun idv => (pathsOf idv).map (·.1))).dedup

/-- All node midpoints of the alignment's nodes on one reference path. -/
def pathMidpoints (pathsOf : ℕ → List (ℕ × List ℕ)) (nodeLen : ℕ → ℕ)
    (aln : Aln) (nm : ℕ) : List ℚ :=
  (sortedDedupNat (aln.path.map (·.node_id))).flatMap (fun idv =>
    (pathsOf idv).flatMap (fun pr =>
      if pr.1 = nm then pr.2.map (fun pos => ((pos + nodeLen idv / 2 : ℕ) : ℚ)) else []))

/-- Median of a sorted list of rationals (middle element, or the average
of the two middles). -/
def medianOfSorted (l : List ℚ) : ℚ :=
  if l.length % 2 = 1 then l.getD (l.length / 2) 0
  else (l.getD (l.length / 2 - 1) 0 + l.getD (l.length / 2) 0) / 2

/-- The claim's reading of the consistency test: per-path MEDIAN positions
within the fragment-size bound on some common reference path. -/
def alignments_consistent_median (pathsOf : ℕ → List (ℕ × List ℕ))
    (nodeLen : ℕ → ℕ) (aln1 aln2 : Aln) (fragment_size_bound : ℕ) : Bool :=
  (pathNamesOf pathsOf aln1).any (fun nm =>
    (pathNamesOf pathsOf aln2).contains nm
    && decide (|medianOfSorted (List.insertionSort (fun a b : ℚ => a ≤ b)
          (pathMidpoints pathsOf nodeLen aln1 nm))
        - medianOfSorted (List.insertionSort (fun a b : ℚ => a ≤ b)
          (pathMidpoints pathsOf nodeLen aln2 nm))|
      < (fragment_size_bound : ℚ)))

/-! ### The consistent-pair grid enumeration of `align_paired_multi_sep`
(mapper.cpp:1041-1080)

The priority queue over grid indices `(i, j)` into the two
score-descending candidate lists, seeded with `(0,0)` and expanded to the
down and right neighbours, accepting a pair iff `alignments_consistent`
holds. -/

/-- A default alignment record (never reached on in-range indices). -/
def dfltAln : Aln :=
  ⟨"", 0, 0, false, "", "", 0, [], [], 0⟩

/-- Score of the candidate at an index, zero out of range. -/
def scoreAt (l : List Aln) (i : ℕ) : ℤ :=
  ((l[i]?).map (·.score)).getD 0

/-- The score sum `ComparePairedAlignmentScores` maximizes. -/
def pairKey (a1 a2 : List Aln) (p : ℕ × ℕ) : ℤ :=
  scoreAt a1 p.1 + scoreAt a2 p.2

/-- Pop a maximal element (the first among ties) from the pending list —
a deterministic refinement of `std::priority_queue::top/pop`. -/
def popMaxBy (key : ℕ × ℕ → ℤ) : List (ℕ × ℕ) → Option ((ℕ × ℕ) × List (ℕ × ℕ))
  | [] => none
  | x :: xs =>
    match popMaxBy key xs with
    | none => some (x, [])
    | some (y, rest) => if key x < key y then some (y, x :: rest) else some (x, xs)

/-- Push the down neighbour `(i+1, j)` when in range and not yet
considered, onto the pending queue and considered set. -/
def pushD (n1 : ℕ) (p : ℕ × ℕ) (rest considered : List (ℕ × ℕ)) :
    List (ℕ × ℕ) × List (ℕ × ℕ) :=
  if decide (p.1 + 1 < n1) && !(considered.contains (p.1 + 1, p.2))
  then (rest ++ [(p.1 + 1, p.2)], considered ++ [(p.1 + 1, p.2)])
  else (rest, considered)

/-- Push the right neighbour `(i, j+1)` likewise. -/
def pushR (n2 : ℕ) (p : ℕ × ℕ) (qc : List (ℕ × ℕ) × List (ℕ × ℕ)) :
    List (ℕ × ℕ) × List (ℕ × ℕ) :=
  if decide (p.2 + 1 < n2) && !(qc.2.contains (p.1, p.2 + 1))
  then (qc.1 ++ [(p.1, p.2 + 1)], qc.2 ++ [(p.1, p.2 + 1)])
  else qc

/-- The enumeration loop: the sequence of pairs popped from the queue.
Each iteration pops one pending pair, counts it if consistent, and pushes
the unconsidered in-range neighbours `(i+1,j)` and `(i,j+1)`; it stops
when the queue empties or `num_pairs` pairs have been accepted.  The fuel
only bounds the iteration count and is supplied large enough that the
queue empties first. -/
def gridPopped (key : ℕ × ℕ → ℤ) (consistentIdx : ℕ → ℕ → Bool)
    (n1 n2 num_pairs : ℕ) :
    ℕ → List (ℕ × ℕ) → List (ℕ × ℕ) → ℕ → List (ℕ × ℕ)
  | 0, _, _, _ => []
  | fuel + 1, queue, considered, acc =>
    if num_pairs ≤ acc then []
    else
      match popMaxBy key queue with
      | none => []
      | some (p, rest) =>
        p :: gridPopped key consistentIdx n1 n2 num_pairs fuel
          (pushR n2 p (pushD n1 p rest considered)).1
          (pushR n2 p (pushD n1 p rest considered)).2
          (if consistentIdx p.1 p.2 then acc + 1 else acc)

/-- The accepted consistent pairs, as grid indices: the popped sequence
filtered by the consistency test. -/
def consistentPairsIdx (a1 a2 : List Aln) (consistent : Aln → Aln → Bool)
    (num_pairs : ℕ) : List (ℕ × ℕ) :=
  (gridPopped (pairKey a1 a2)
      (fun i j => consistent (a1.getD i dfltAln) (a2.getD j dfltAln))
      a1.length a2.length num_pairs (a1.length * a2.length + 2) [(0, 0)] [] 0).filter
    (fun p => consistent (a1.getD p.1 dfltAln) (a2.getD p.2 dfltAln))

lemma popMaxBy_ne_none (key : ℕ × ℕ → ℤ) (z : ℕ × ℕ) (zs : List (ℕ × ℕ)) :
    popMaxBy key (z :: zs) ≠ none := by
  rw [popMaxBy]
  cases popMaxBy key zs with
  | none => simp
  | some yr =>
    obtain ⟨y, r⟩ := yr
    by_cases h : key z < key y
    · simp [h]
    · simp [h]

lemma popMaxBy_spec (key : ℕ × ℕ → ℤ) :
    ∀ (q : List (ℕ × ℕ)) p rest, popMaxBy key q = some (p, rest) →
      p ∈ q ∧ (∀ x ∈ q, key x ≤ key p) ∧ (∀ x ∈ rest, x ∈ q) := by
  intro q
  induction q with
  | nil => intro p rest h; simp [popMaxBy] at h
  | cons x xs ih =>
    intro p rest h
    rw [popMaxBy] at h
    cases hx : popMaxBy key xs with
    | none =>
      rw [hx] at h
      cases xs with
      | nil =>
        have h2 : some (x, ([] : List (ℕ × ℕ))) = some (p, rest) := h
        simp only [Option.some.injEq, Prod.mk.injEq] at h2
        obtain ⟨rfl, rfl⟩ := h2
        exact ⟨List.mem_singleton_self x, by simp, by simp⟩
      | cons z zs => exact absurd hx (popMaxBy_ne_none key z zs)
    | some yr =>
      obtain ⟨y, r⟩ := yr
      rw [hx] at h
      obtain ⟨hy1, hy2, hy3⟩ := ih y r hx
      have h2 : (if key x < key y then some (y, x :: r) else some (x, xs))
          = some (p, rest) := h
      by_cases hcmp : key x < key y
      · rw [if_pos hcmp] at h2
        simp only [Option.some.injEq, Prod.mk.injEq] at h2
        obtain ⟨rfl, rfl⟩ := h2
        refine ⟨List.mem_cons_of_mem x hy1, ?_, ?_⟩
        · intro z hz
          rcases List.mem_cons.mp hz with rfl | hz
          · exact le_of_lt hcmp
          · exact hy2 z hz
        · intro z hz
          rcases List.mem_cons.mp hz with rfl | hz
          · exact List.mem_cons_self z xs
          · exact List.mem_cons_of_mem x (hy3 z hz)
      · rw [if_neg hcmp] at h2
        simp only [Option.some.injEq, Prod.mk.injEq] at h2
        obtain ⟨rfl, rfl⟩ := h2
        refine ⟨List.mem_cons_self _ _, ?_, fun z hz => List.mem_cons_of_mem _ hz⟩
        intro z hz
        rcases List.mem_cons.mp hz with rfl | hz
        · exact le_refl _
        · exact le_trans (hy2 z hz) (le_of_not_lt hcmp)

lemma pushD_bound (key : ℕ × ℕ → ℤ) (n1 : ℕ) (p : ℕ × ℕ)
    (rest considered : List (ℕ × ℕ)) (B : ℤ)
    (hrest : ∀ x ∈ rest, key x ≤ B)
    (hd : p.1 + 1 < n1 → key (p.1 + 1, p.2) ≤ B) :
    ∀ x ∈ (pushD n1 p rest considered).1, key x ≤ B := by
  intro x hx
  rw [pushD] at hx
  split at hx
  · rename_i hcond
    rcases List.mem_append.mp hx with hx | hx
    · exact hrest x hx
    · have := List.mem_singleton.mp hx
      subst this
      have hlt := of_decide_eq_true (Bool.and_elim_left hcond)
      exact hd hlt
  · exact hrest x hx

lemma pushR_bound (key : ℕ × ℕ → ℤ) (n2 : ℕ) (p : ℕ × ℕ)
    (qc : List (ℕ × ℕ) × List (ℕ × ℕ)) (B : ℤ)
    (hq : ∀ x ∈ qc.1, key x ≤ B)
    (hr : p.2 + 1 < n2 → key (p.1, p.2 + 1) ≤ B) :
    ∀ x ∈ (pushR n2 p qc).1, key x ≤ B := by
  intro x hx
  rw [pushR] at hx
  split at hx
  · rename_i hcond
    rcases List.mem_append.mp hx with hx | hx
    · exact hq x hx
    · have := List.mem_singleton.mp hx
      subst this
      have hlt := of_decide_eq_true (Bool.and_elim_left hcond)
      exact hr hlt
  · exact hq x hx

lemma gridPopped_sorted (key : ℕ × ℕ → ℤ) (cI : ℕ → ℕ → Bool) (n1 n2 np : ℕ)
    (hm1 : ∀ i j : ℕ, i + 1 < n1 → key (i + 1, j) ≤ key (i, j))
    (hm2 : ∀ i j : ℕ, j + 1 < n2 → key (i, j + 1) ≤ key (i, j)) :
    ∀ (fuel : ℕ) (queue considered : List (ℕ × ℕ)) (acc : ℕ) (B : ℤ),
      (∀ x ∈ queue, key x ≤ B) →
      (∀ p ∈ gridPopped key cI n1 n2 np fuel queue considered acc, key p ≤ B)
      ∧ List.Chain' (fun p q => key q ≤ key p)
          (gridPopped key cI n1 n2 np fuel queue considered acc) := by
  intro fuel
  induction fuel with
  | zero =>
    intro queue considered acc B hq
    rw [gridPopped]
    exact ⟨fun p hp => absurd hp (List.not_mem_nil p), List.chain'_nil⟩
  | succ fuel ih =>
    intro queue considered acc B hq
    rw [gridPopped]
    split
    · exact ⟨fun p hp => absurd hp (List.not_mem_nil p), List.chain'_nil⟩
    · cases hpop : popMaxBy key queue with
      | none =>
        exact ⟨fun p hp => absurd hp (List.not_mem_nil p), List.chain'_nil⟩
      | some pr =>
        obtain ⟨p, rest⟩ := pr
        obtain ⟨hpmem, hmax, hrest⟩ := popMaxBy_spec key queue p rest hpop
        have hq2 : ∀ x ∈ (pushR n2 p (pushD n1 p rest considered)).1, key x ≤ key p := by
          refine pushR_bound key n2 p _ (key p) ?_ (fun h => hm2 p.1 p.2 h)
          refine pushD_bound key n1 p rest considered (key p)
            (fun x hx => hmax x (hrest x hx)) (fun h => hm1 p.1 p.2 h)
        have hrec := ih (pushR n2 p (pushD n1 p rest considered)).1
          (pushR n2 p (pushD n1 p rest considered)).2
          (if cI p.1 p.2 then acc + 1 else acc) (key p) hq2
        constructor
        · intro x hx
          rcases List.mem_cons.mp hx with rfl | hx
          · exact hq x hpmem
          · exact le_trans (hrec.1 x hx) (hq p hpmem)
        · refine List.Chain'.cons' hrec.2 ?_
          intro y hy
          exact hrec.1 y (List.mem_of_mem_head? hy)

lemma scoreAt_antitone (l : List Aln)
    (h : List.Chain' (fun x y : Aln => y.score ≤ x.score) l)
    (i : ℕ) (hi : i + 1 < l.length) : scoreAt l (i + 1) ≤ scoreAt l i := by
  rw [List.chain'_iff_get] at h
  have hr := h i (by omega)
  rw [scoreAt, scoreAt, List.getElem?_eq_getElem (by omega : i < l.length),
      List.getElem?_eq_getElem (by omega : i + 1 < l.length)]
  simpa using hr

/-- C8 counterexample: one candidate on each side, both touching reference
path "ref".  The first alignment's single node occurs at path offsets
0, 0 and 30 (node length 2, so midpoints 1, 1, 31); the mate's node sits
at offset 20 (midpoint 21).  With `fragment_size = 11` the code's
`alignments_consistent` accepts the pair, because the MEAN summary
positions are 11 and 21 (10 apart), while the claim's reading — MEDIAN
positions, 1 and 21, 20 apart — would reject it: acceptance is governed by
means, not medians. -/
theorem mapper_C8_counterexample :
    alignments_consistent
        (alignment_mean_path_positions
          (fun idv => if idv = 1 then [(0, [0, 0, 30])]
            else if idv = 2 then [(0, [20])] else [])
          (fun _ => 2) false
          ⟨"a", 1, 0, false, "", "", 0, [⟨1, 0, false⟩], [], 0⟩)
        (alignment_mean_path_positions
          (fun idv => if idv = 1 then [(0, [0, 0, 30])]
            else if idv = 2 then [(0, [20])] else [])
          (fun _ => 2) false
          ⟨"b", 1, 0, false, "", "", 0, [⟨2, 0, false⟩], [], 0⟩)
        11 = true
    ∧ alignments_consistent_median
        (fun idv => if idv = 1 then [(0, [0, 0, 30])]
          else if idv = 2 then [(0, [20])] else [])
        (fun _ => 2)
        ⟨"a", 1, 0, false, "", "", 0, [⟨1, 0, false⟩], [], 0⟩
        ⟨"b", 1, 0, false, "", "", 0, [⟨2, 0, false⟩], [], 0⟩
        11 = false := by
  constructor
  · norm_num [alignments_consistent, alignment_mean_path_positions, sortedDedupNat,
      buildNodePositions, insertOuter, insertInner, meanLoop, lookupRef,
      List.insertionSort, List.orderedInsert, List.dedup, List.pwFilter,
      List.foldl, List.any]
  · norm_num [alignments_consistent_median, pathNamesOf, pathMidpoints,
      medianOfSorted, sortedDedupNat,
      List.insertionSort, List.orderedInsert, List.dedup, List.pwFilter,
      List.foldl, List.any, List.flatMap]

/-- C8 amended: over score-sorted candidate lists the grid enumeration
pops pairs in non-increasing score-sum order (a max-heap seeded with
`(0,0)` and expanded to the down and right neighbours), and a popped pair
is kept exactly when `alignments_consistent` holds of the two candidates —
a test on MEAN (not median) path-summary positions being within
`fragment_size`. -/
theorem mapper_C8_pair_enumeration (a1 a2 : List Aln)
    (consistent : Aln → Aln → Bool) (np : ℕ)
    (h1 : List.Chain' (fun x y : Aln => y.score ≤ x.score) a1)
    (h2 : List.Chain' (fun x y : Aln => y.score ≤ x.score) a2) :
    List.Chain' (fun p q => pairKey a1 a2 q ≤ pairKey a1 a2 p)
      (gridPopped (pairKey a1 a2)
        (fun i j => consistent (a1.getD i dfltAln) (a2.getD j dfltAln))
        a1.length a2.length np (a1.length * a2.length + 2) [(0, 0)] [] 0)
    ∧ ∀ p : ℕ × ℕ, p ∈ consistentPairsIdx a1 a2 consistent np
        ↔ p ∈ gridPopped (pairKey a1 a2)
              (fun i j => consistent (a1.getD i dfltAln) (a2.getD j dfltAln))
              a1.length a2.length np (a1.length * a2.length + 2) [(0, 0)] [] 0
          ∧ consistent (a1.getD p.1 dfltAln) (a2.getD p.2 dfltAln) = true := by
  have hm1 : ∀ i j : ℕ, i + 1 < a1.length
      → pairKey a1 a2 (i + 1, j) ≤ pairKey a1 a2 (i, j) := by
    intro i j hi
    show scoreAt a1 (i + 1) + scoreAt a2 j ≤ scoreAt a1 i + scoreAt a2 j
    have := scoreAt_antitone a1 h1 i hi
    omega
  have hm2 : ∀ i j : ℕ, j + 1 < a2.length
      → pairKey a1 a2 (i, j + 1) ≤ pairKey a1 a2 (i, j) := by
    intro i j hj
    show scoreAt a1 i + scoreAt a2 (j + 1) ≤ scoreAt a1 i + scoreAt a2 j
    have := scoreAt_antitone a2 h2 j hj
    omega
  constructor
  · exact (gridPopped_sorted (pairKey a1 a2) _ a1.length a2.length np hm1 hm2
      (a1.length * a2.length + 2) [(0, 0)] [] 0 (pairKey a1 a2 (0, 0))
      (by intro x hx; rw [List.mem_singleton.mp hx])).2
  · intro p
    rw [consistentPairsIdx, List.mem_filter]

/-- C8 witness: the enumeration facts on singleton candidate lists of
scores 3 and 2 with an always-true consistency oracle. -/
theorem mapper_C8_witness :
    List.Chain' (fun p q =>
        pairKey [⟨"x", 3, 0, false, "", "", 0, [], [], 0⟩]
            [⟨"y", 2, 0, false, "", "", 0, [], [], 0⟩] q
          ≤ pairKey [⟨"x", 3, 0, false, "", "", 0, [], [], 0⟩]
            [⟨"y", 2, 0, false, "", "", 0, [], [], 0⟩] p)
      (gridPopped
        (pairKey [⟨"x", 3, 0, false, "", "", 0, [], [], 0⟩]
          [⟨"y", 2, 0, false, "", "", 0, [], [], 0⟩])
        (fun i j => (fun _ _ : Aln => true)
          ([⟨"x", 3, 0, false, "", "", 0, [], [], 0⟩].getD i dfltAln)
          ([⟨"y", 2, 0, false, "", "", 0, [], [], 0⟩].getD j dfltAln))
        1 1 2 3 [(0, 0)] [] 0) :=
  (mapper_C8_pair_enumeration
    [⟨"x", 3, 0, false, "", "", 0, [], [], 0⟩]
    [⟨"y", 2, 0, false, "", "", 0, [], [], 0⟩]
    (fun _ _ => true) 2
    (List.chain'_singleton _) (List.chain'_singleton _)).1

/-! ### `Mapper::align_paired_multi_sep` post-processing (mapper.cpp:990-1246)

Everything after the two single-end candidate lists exist: the score sort,
the fragment-model branch (grid enumeration of consistent pairs, resize,
primary/secondary marking, `only_top_scoring_pair` zap), the
sensitivity-retry ladder (modelled by the fuel argument, one level per
remaining MEM-length reduction), the fragment-record/imperfect-pair pass,
the retry-queue clearing, the multimap truncation, the unmapped padding,
and the unconditional mate-name linking.  The per-attempt candidate lists
(`cands`), the pair-consistency test and `approx_pair_fragment_length`
(`fl`) are oracles. -/

/-- Configuration read by the paired post-processing. -/
structure PairedParams where
  fragment_size : ℕ
  max_multimaps : ℕ
  fragment_max : ℕ
  perfect_pair_identity_threshold : ℚ
  only_top_scoring_pair : Bool
  retrying : Bool
deriving DecidableEq, Repr

instance decAlnScoreGe : DecidableRel (fun a b : Aln => b.score ≤ a.score) :=
  fun a b => inferInstanceAs (Decidable (b.score ≤ a.score))

/-- The score-descending sort applied to both candidate lists
(mapper.cpp:992-997). -/
def sortByScoreDesc (l : List Aln) : List Aln :=
  List.insertionSort (fun a b : Aln => b.score ≤ a.score) l

/-- The marking loop of the first mates: link to the partner and flag all
but the first as secondary (mapper.cpp:1091-1093 and 1130-1133). -/
def markPairFirst (nm : String) : Bool → List Aln → List Aln
  | _, [] => []
  | b, a :: l => { a with fragNext := nm, secondary := b } :: markPairFirst nm true l

/-- The marking loop of the second mates. -/
def markPairSecond (nm : String) : Bool → List Aln → List Aln
  | _, [] => []
  | b, a :: l => { a with fragPrev := nm, secondary := b } :: markPairSecond nm true l

/-- The branch of `align_paired_multi_sep` that builds `results`
(mapper.cpp:1011-1139): with a fragment model, enumerate consistent pairs
on the score grid, truncate, mark, and optionally zap unless the primary
pair is individually top-scoring; without one, truncate and mark the two
lists independently. -/
def pairedBranch (P : PairedParams) (consistent : Aln → Aln → Bool)
    (read1 read2 : Aln) (a1 a2 : List Aln) : List Aln × List Aln :=
  if P.fragment_size ≠ 0 then
    let idxs := consistentPairsIdx a1 a2 consistent (max P.max_multimaps 2)
    let first2 := markPairFirst read2.name false
      ((idxs.map (fun p => a1.getD p.1 dfltAln)).take P.max_multimaps)
    let second2 := markPairSecond read1.name false
      ((idxs.map (fun p => a2.getD p.2 dfltAln)).take P.max_multimaps)
    if P.only_top_scoring_pair && !first2.isEmpty
        && (decide (scoreAt first2 0 < scoreAt a1 0)
            || decide (scoreAt second2 0 < scoreAt a2 0)) then
      ([], [])
    else if !first2.isEmpty then (first2, second2) else ([], [])
  else
    (markPairFirst read2.name false (a1.take P.max_multimaps),
     markPairSecond read1.name false (a2.take P.max_multimaps))

/-- Is a fragment length acceptable for recording (mapper.cpp:1191-1192):
below `fragment_size` when a model exists, else below `fragment_max`. -/
def fragLengthOk (P : PairedParams) (ln : ℤ) : Bool :=
  (decide (P.fragment_size ≠ 0) && decide (ln < (P.fragment_size : ℤ)))
    || (decide (P.fragment_size = 0) && decide (ln < (P.fragment_max : ℤ)))

/-- The perfect-pair condition of mapper.cpp:1187-1192 for one fragment
record. -/
def perfectPairCond (P : PairedParams) (results : List Aln × List Aln)
    (ln : ℤ) : Bool :=
  decide (results.1.length = 1) && decide (results.2.length = 1)
    && decide (P.perfect_pair_identity_threshold
        < ((results.1.headD dfltAln).identity))
    && decide (P.perfect_pair_identity_threshold
        < ((results.2.headD dfltAln).identity))
    && fragLengthOk P ln

/-- The fragment-record pass (mapper.cpp:1174-1202): skipped entirely when
retrying; otherwise appends the approximate per-path fragment records to
both mates of each index pair and reports whether any record fell into the
`imperfect_pair` fallback (no perfect-pair recording and no model yet). -/
def fragmentRecordPass (P : PairedParams) (fl : Aln → Aln → List (String × ℤ))
    (results : List Aln × List Aln) : (List Aln × List Aln) × Bool :=
  if P.retrying then (results, false)
  else
    let n := min results.1.length results.2.length
    let recsAt := fun i => fl (results.1.getD i dfltAln) (results.2.getD i dfltAln)
    let first2 := results.1.mapIdx (fun i a =>
      if i < n then { a with fragments := a.fragments ++ recsAt i } else a)
    let second2 := results.2.mapIdx (fun i a =>
      if i < n then { a with fragments := a.fragments ++ recsAt i } else a)
    let imperfect := decide (P.fragment_size = 0)
      && (List.range n).any (fun i =>
          (recsAt i).any (fun pr => !(perfectPairCond P results pr.2)))
    ((first2, second2), imperfect)

/-- The common tail of `align_paired_multi_sep` (mapper.cpp:1174-1244):
fragment records, the retry-queue clearing, multimap truncation, unmapped
padding, and the final unconditional mate-name linking. -/
def pairedTail (P : PairedParams) (fl : Aln → Aln → List (String × ℤ))
    (read1 read2 : Aln) (resultsIn : List Aln × List Aln) :
    (List Aln × List Aln) × Bool :=
  let rp := fragmentRecordPass P fl resultsIn
  let queued := !P.retrying && rp.2 && decide (P.fragment_max ≠ 0)
  let results2 := if queued then (([] : List Aln), ([] : List Aln)) else rp.1
  let f3 := results2.1.take P.max_multimaps
  let s3 := results2.2.take P.max_multimaps
  let f4 := if f3.isEmpty then [{ read1 with path := [], score := 0, identity := 0 }] else f3
  let s4 := if s3.isEmpty then [{ read2 with path := [], score := 0, identity := 0 }] else s3
  ((f4.map (fun a => { a with fragNext := read2.name }),
    s4.map (fun a => { a with fragPrev := read1.name })), queued)

/-- Shallow embedding of the `align_paired_multi_sep` pipeline from the
point where both candidate lists exist.  The fuel argument is the number
of remaining sensitivity-retry levels (`kmer_sensitivity_step`
reductions); a retry re-runs the pipeline on the next candidate lists,
exactly as the recursive call at mapper.cpp:1156 does. -/
def align_paired_multi_sep_post (P : PairedParams)
    (consistent : Aln → Aln → Bool) (fl : Aln → Aln → List (String × ℤ))
    (read1 read2 : Aln) (cands : ℕ → List Aln × List Aln) :
    ℕ → (List Aln × List Aln) × Bool
  | 0 =>
    pairedTail P fl read1 read2
      (pairedBranch P consistent read1 read2
        (sortByScoreDesc (cands 0).1) (sortByScoreDesc (cands 0).2))
  | f + 1 =>
    let res := pairedBranch P consistent read1 read2
      (sortByScoreDesc (cands (f + 1)).1) (sortByScoreDesc (cands (f + 1)).2)
    if res.1.isEmpty || res.2.isEmpty
        || decide (scoreAt res.1 0 = 0) || decide (scoreAt res.2 0 = 0) then
      align_paired_multi_sep_post P consistent fl read1 read2 cands f
    else
      pairedTail P fl read1 read2 res

/-- C2 counterexample: without a fragment model (`fragment_size = 0`, the
initial state), in retrying mode, mate one has two scoring candidates and
mate two has one; `align_paired_multi_sep` returns the two truncated lists
as they are, with lengths 2 and 1 — the claim's `|first| == |second|`
fails. -/
theorem mapper_C2_counterexample :
    ¬ ((align_paired_multi_sep_post ⟨0, 2, 100000, 98/100, false, true⟩
          (fun _ _ => true) (fun _ _ => [])
          ⟨"r1", 0, 0, false, "", "", 0, [], [], 0⟩
          ⟨"r2", 0, 0, false, "", "", 0, [], [], 0⟩
          (fun _ => ([⟨"r1", 2, 0, false, "", "", 0, [⟨1, 0, false⟩], [], 0⟩,
                      ⟨"r1", 1, 0, false, "", "", 0, [⟨2, 0, false⟩], [], 1⟩],
                     [⟨"r2", 3, 0, false, "", "", 0, [⟨3, 0, false⟩], [], 0⟩]))
          0).1.1.length
        = (align_paired_multi_sep_post ⟨0, 2, 100000, 98/100, false, true⟩
          (fun _ _ => true) (fun _ _ => [])
          ⟨"r1", 0, 0, false, "", "", 0, [], [], 0⟩
          ⟨"r2", 0, 0, false, "", "", 0, [], [], 0⟩
          (fun _ => ([⟨"r1", 2, 0, false, "", "", 0, [⟨1, 0, false⟩], [], 0⟩,
                      ⟨"r1", 1, 0, false, "", "", 0, [⟨2, 0, false⟩], [], 1⟩],
                     [⟨"r2", 3, 0, false, "", "", 0, [⟨3, 0, false⟩], [], 0⟩]))
          0).1.2.length) := by
  decide

lemma markPairFirst_length (nm : String) (b : Bool) (l : List Aln) :
    (markPairFirst nm b l).length = l.length := by
  induction l generalizing b with
  | nil => rfl
  | cons a l ih => rw [markPairFirst]; simp [ih]

lemma markPairSecond_length (nm : String) (b : Bool) (l : List Aln) :
    (markPairSecond nm b l).length = l.length := by
  induction l generalizing b with
  | nil => rfl
  | cons a l ih => rw [markPairSecond]; simp [ih]

lemma pairedBranch_lengths (P : PairedParams) (consistent : Aln → Aln → Bool)
    (read1 read2 : Aln) (a1 a2 : List Aln) (hfs : P.fragment_size ≠ 0) :
    (pairedBranch P consistent read1 read2 a1 a2).1.length
      = (pairedBranch P consistent read1 read2 a1 a2).2.length := by
  rw [pairedBranch, if_pos hfs]
  dsimp only
  split
  · rfl
  · split
    · simp [markPairFirst_length, markPairSecond_length]
    · rfl

lemma padNonempty (pad : Aln) (l : List Aln) (f : Aln → Aln) :
    (if l.isEmpty then [pad] else l).map f ≠ [] := by
  split
  · simp
  · rename_i h
    have hlen : l.length ≠ 0 := by
      rw [List.isEmpty_iff_length_eq_zero] at h
      exact h
    intro hmap
    rw [List.map_eq_nil_iff] at hmap
    rw [hmap] at hlen
    simp at hlen

lemma pairedTail_shape (P : PairedParams) (fl : Aln → Aln → List (String × ℤ))
    (read1 read2 : Aln) (results : List Aln × List Aln) :
    (pairedTail P fl read1 read2 results).1.1 ≠ []
    ∧ (pairedTail P fl read1 read2 results).1.2 ≠ []
    ∧ (∀ a ∈ (pairedTail P fl read1 read2 results).1.1, a.fragNext = read2.name)
    ∧ (∀ a ∈ (pairedTail P fl read1 read2 results).1.2, a.fragPrev = read1.name)
    ∧ (results.1.length = results.2.length
        → (pairedTail P fl read1 read2 results).1.1.length
          = (pairedTail P fl read1 read2 results).1.2.length) := by
  rw [pairedTail]
  set rp := fragmentRecordPass P fl results with hrp
  have hrplen : rp.1.1.length = results.1.length ∧ rp.1.2.length = results.2.length := by
    rw [hrp, fragmentRecordPass]
    split
    · exact ⟨rfl, rfl⟩
    · simp
  set queued := (!P.retrying && rp.2 && decide (P.fragment_max ≠ 0) : Bool) with hq
  set results2 := if queued = true then (([] : List Aln), ([] : List Aln)) else rp.1
    with hr2
  set f3 := results2.1.take P.max_multimaps with hf3
  set s3 := results2.2.take P.max_multimaps with hs3
  refine ⟨?_, ?_, ?_, ?_, ?_⟩
  · exact padNonempty _ _ _
  · exact padNonempty _ _ _
  · intro a ha
    simp only [List.mem_map] at ha
    obtain ⟨b, _, rfl⟩ := ha
    rfl
  · intro a ha
    simp only [List.mem_map] at ha
    obtain ⟨b, _, rfl⟩ := ha
    rfl
  · intro hlen
    have hl2 : results2.1.length = results2.2.length := by
      rw [hr2]
      split
      · rfl
      · rw [hrplen.1, hrplen.2, hlen]
    have hf : f3.length = s3.length := by
      rw [hf3, hs3, List.length_take, List.length_take, hl2]
    simp only [List.length_map]
    by_cases he : f3.isEmpty
    · have hse : s3.isEmpty = true := by
        rw [List.isEmpty_iff_length_eq_zero] at he ⊢
        omega
      rw [if_pos he, if_pos hse]
      rfl
    · have hse : ¬ s3.isEmpty = true := by
        rw [List.isEmpty_iff_length_eq_zero] at he ⊢
        omega
      rw [if_neg he, if_neg hse]
      exact hf

/-- C2 amended: the separate-then-pair strategy always returns two
non-empty lists in which every first-mate entry carries
`fragment_next.name = read2.name` and every second-mate entry carries
`fragment_prev.name = read1.name`; the two lists have equal length
whenever a fragment-size model exists (`fragment_size != 0`), but without
one the code returns the two independently truncated candidate lists,
whose lengths may differ. -/
theorem mapper_C2_align_paired_sep (P : PairedParams)
    (consistent : Aln → Aln → Bool) (fl : Aln → Aln → List (String × ℤ))
    (read1 read2 : Aln) (cands : ℕ → List Aln × List Aln) (fuel : ℕ) :
    (align_paired_multi_sep_post P consistent fl read1 read2 cands fuel).1.1 ≠ []
    ∧ (align_paired_multi_sep_post P consistent fl read1 read2 cands fuel).1.2 ≠ []
    ∧ (∀ a ∈ (align_paired_multi_sep_post P consistent fl read1 read2 cands fuel).1.1,
        a.fragNext = read2.name)
    ∧ (∀ a ∈ (align_paired_multi_sep_post P consistent fl read1 read2 cands fuel).1.2,
        a.fragPrev = read1.name)
    ∧ (P.fragment_size ≠ 0 →
        (align_paired_multi_sep_post P consistent fl read1 read2 cands fuel).1.1.length
          = (align_paired_multi_sep_post P consistent fl read1 read2 cands fuel).1.2.length) := by
  induction fuel with
  | zero =>
    have hs := pairedTail_shape P fl read1 read2
      (pairedBranch P consistent read1 read2
        (sortByScoreDesc (cands 0).1) (sortByScoreDesc (cands 0).2))
    rw [align_paired_multi_sep_post]
    exact ⟨hs.1, hs.2.1, hs.2.2.1, hs.2.2.2.1, fun hfs =>
      hs.2.2.2.2 (pairedBranch_lengths P consistent read1 read2 _ _ hfs)⟩
  | succ f ih =>
    rw [align_paired_multi_sep_post]
    split
    · exact ih
    · have hs := pairedTail_shape P fl read1 read2
        (pairedBranch P consistent read1 read2
          (sortByScoreDesc (cands (f + 1)).1) (sortByScoreDesc (cands (f + 1)).2))
      exact ⟨hs.1, hs.2.1, hs.2.2.1, hs.2.2.2.1, fun hfs =>
        hs.2.2.2.2 (pairedBranch_lengths P consistent read1 read2 _ _ hfs)⟩

/-! ### C7: `MEMChainModel::traceback` (mapper.cpp:6770-6873) -/

/-- A chain-model vertex as used by `MEMChainModel::traceback`: its MEM
weight, the MEM's fragment tag, and the mutable `prev_cost` adjacency
list, whose first component is `none` when the transition has been masked
out (`p.first = nullptr` in mapper.cpp:6859-6867).  Vertices are
identified by their index in the model vector. -/
structure MCVertex where
  weight : ℚ
  fragment : ℕ
  prev_cost : List (Option ℕ × ℚ)

def dfltV : MCVertex := ⟨0, 0, []⟩

/-- The inner loop of `MEMChainModel::score` (mapper.cpp:6776-6783): fold
over the `prev_cost` entries, proposing `weight + transition + prev-score`
and keeping a strictly better proposal together with its `prev` pointer;
masked entries are skipped. -/
def entriesFold (w : ℚ) (scores : List ℚ) :
    ℚ × Option ℕ → List (Option ℕ × ℚ) → ℚ × Option ℕ
  | acc, [] => acc
  | acc, (none, _) :: rest => entriesFold w scores acc rest
  | acc, (some j, c) :: rest =>
    if acc.1 < w + c + scores.getD j 0 then
      entriesFold w scores (w + c + scores.getD j 0, some j) rest
    else entriesFold w scores acc rest

/-- One pass of `clear_scores(); score(exclude)` (mapper.cpp:6770-6802):
all scores and `prev` pointers start cleared at `0`/`none` and the
vertices are processed in model order, each reading the current (possibly
still cleared) scores of its predecessors; vertices in `exclude` are
skipped. -/
def scorePassAux (verts : List MCVertex) (exclude : List ℕ) :
    List ℕ → List ℚ → List (Option ℕ) → List ℚ × List (Option ℕ)
  | [], scores, prevs => (scores, prevs)
  | i :: rest, scores, prevs =>
    if i ∈ exclude then scorePassAux verts exclude rest scores prevs
    else
      let r := entriesFold (verts.getD i dfltV).weight scores
        ((verts.getD i dfltV).weight, none) (verts.getD i dfltV).prev_cost
      scorePassAux verts exclude rest (scores.set i r.1) (prevs.set i r.2)

def scorePass (verts : List MCVertex) (exclude : List ℕ) :
    List ℚ × List (Option ℕ) :=
  scorePassAux verts exclude (List.range verts.length)
    (List.replicate verts.length 0) (List.replicate verts.length none)

/-- `MEMChainModel::max_vertex` (mapper.cpp:6787-6795): the first vertex
whose score is a strict running maximum. -/
def maxGo : List ℚ → ℕ → ℕ × ℚ → ℕ × ℚ
  | [], _, acc => acc
  | s :: rest, i, acc =>
    if acc.2 < s then maxGo rest (i + 1) (i, s) else maxGo rest (i + 1) acc

def maxVertex : List ℚ → Option (ℕ × ℚ)
  | [] => none
  | s :: rest => some (maxGo rest 1 (0, s))

/-- Follow `prev` pointers from the maximum vertex (mapper.cpp:6834-6841).
The fuel bounds the walk by the vertex count: a `prev` chain without
repeated vertices is never longer, and on a degenerate cyclic `prev`
assignment the C++ loop would not terminate at all. -/
def walkPrev (prevs : List (Option ℕ)) : ℕ → ℕ → List ℕ
  | 0, _ => []
  | fuel + 1, i =>
    match prevs.getD i none with
    | none => [i]
    | some j => i :: walkPrev prevs fuel j

/-- Adjacent pairs `(v, prev v)` of a vertex trace: the transitions the
trace consumed. -/
def adjPairs : List ℕ → List (ℕ × ℕ)
  | a :: b :: rest => (a, b) :: adjPairs (b :: rest)
  | _ => []

/-- Masking of one `prev_cost` entry (mapper.cpp:6859-6867): entries
pointing at the used predecessor are nulled, and in paired mode so are
entries pointing at any chain member from a different fragment. -/
def maskEntry (pred : ℕ) (paired : Bool) (chain : List ℕ) (frags : ℕ → ℕ)
    (vfrag : ℕ) : Option ℕ × ℚ → Option ℕ × ℚ
  | (none, c) => (none, c)
  | (some u, c) =>
    if u = pred then (none, c)
    else if paired && decide (u ∈ chain) && decide (frags u ≠ vfrag) then
      (none, c)
    else (some u, c)

def fragOf (verts : List MCVertex) (u : ℕ) : ℕ := (verts.getD u dfltV).fragment

/-- Mask the `prev_cost` entries of vertex `a`, whose used predecessor in
the current trace is `pred`. -/
def applyMask (paired : Bool) (chain : List ℕ) (verts : List MCVertex)
    (a pred : ℕ) : List MCVertex :=
  match verts[a]? with
  | none => verts
  | some v => verts.set a
      { v with prev_cost :=
          v.prev_cost.map (maskEntry pred paired chain (fragOf verts) v.fragment) }

def maskTrace (paired : Bool) (chain : List ℕ) :
    List MCVertex → List (ℕ × ℕ) → List MCVertex
  | verts, [] => verts
  | verts, p :: rest => maskTrace paired chain (applyMask paired chain verts p.1 p.2) rest

/-- `MEMChainModel::traceback` (mapper.cpp:6804-6873); the first argument
of the recursion is the number of remaining `alt_alns` iterations.  Each
emitted element records the vertex trace in traversal order (maximum
vertex first — the C++ pushes the corresponding MEMs in the reverse
order) together with the score of its head, the per-iteration maximum. -/
def tracebackGo (paired : Bool) : ℕ → List MCVertex → List ℕ → List (List ℕ × ℚ)
  | 0, _, _ => []
  | k + 1, verts, exclude =>
    match maxVertex (scorePass verts exclude).1 with
    | none => []
    | some m =>
      if m.2 = 0 then []
      else
        let chain := walkPrev (scorePass verts exclude).2 verts.length m.1
        (chain, m.2) ::
          tracebackGo paired k (maskTrace paired chain verts (adjPairs chain))
            (if paired then (if chain.length = 1 then m.1 :: exclude else exclude)
             else chain ++ exclude)

def traceback (verts : List MCVertex) (K : ℕ) (paired : Bool) :
    List (List ℕ × ℚ) :=
  tracebackGo paired K verts []

lemma set_getD {α : Type} (l : List α) (i b : ℕ) (x d : α) :
    (l.set i x).getD b d = if b = i ∧ i < l.length then x else l.getD b d := by
  induction l generalizing i b with
  | nil => simp
  | cons a l ih =>
    cases i with
    | zero =>
      cases b with
      | zero => simp
      | succ b => simp
    | succ i =>
      cases b with
      | zero => simp
      | succ b =>
        simp only [List.set, List.getD_cons_succ, ih, List.length_cons]
        split_ifs with h1 h2 h2
        · rfl
        · exact absurd ⟨by omega, by omega⟩ h2
        · exact absurd ⟨by omega, by omega⟩ h1
        · rfl

lemma replicate_getD {α : Type} (n b : ℕ) (x : α) :
    (List.replicate n x).getD b x = x := by
  by_cases h : b < n
  · rw [List.getD_eq_getElem _ _ (by simpa using h)]
    simp
  · rw [List.getD_eq_default]
    simpa using le_of_not_lt h

lemma forall₂_exists_of_mem_left {α β : Type} {R : α → β → Prop}
    {l' : List α} {l : List β} (h : List.Forall₂ R l' l) {a : α} (ha : a ∈ l') :
    ∃ b ∈ l, R a b := by
  induction h with
  | nil => cases ha
  | cons hr _ ih =>
    rcases List.mem_cons.mp ha with rfl | ha'
    · exact ⟨_, List.mem_cons_self _ _, hr⟩
    · obtain ⟨b, hb, hrb⟩ := ih ha'
      exact ⟨b, List.mem_cons_of_mem _ hb, hrb⟩

lemma forall₂_trans_of {α : Type} {R : α → α → Prop}
    (hR : ∀ a b c, R a b → R b c → R a c) :
    ∀ {l1 l2 l3 : List α}, List.Forall₂ R l1 l2 → List.Forall₂ R l2 l3 →
      List.Forall₂ R l1 l3 := by
  intro l1 l2 l3 h12
  induction h12 generalizing l3 with
  | nil => intro h23; cases h23; exact List.Forall₂.nil
  | cons hr _ ih =>
    intro h23
    cases h23 with
    | cons hr' h' => exact List.Forall₂.cons (hR _ _ _ hr hr') (ih h')

/-- Entry order under masking: an entry may only keep its cost and either
keep its pointer or have it nulled. -/
def entryLe (e' e : Option ℕ × ℚ) : Prop :=
  e'.2 = e.2 ∧ (e'.1 = e.1 ∨ e'.1 = none)

/-- Vertex order under masking: weight and fragment unchanged, each
`prev_cost` entry at most as connected. -/
def vertexLe (v' v : MCVertex) : Prop :=
  v'.weight = v.weight ∧ v'.fragment = v.fragment
    ∧ List.Forall₂ entryLe v'.prev_cost v.prev_cost

lemma entryLe_refl (e : Option ℕ × ℚ) : entryLe e e := ⟨rfl, Or.inl rfl⟩

lemma entryLe_trans {e'' e' e : Option ℕ × ℚ} (h1 : entryLe e'' e')
    (h2 : entryLe e' e) : entryLe e'' e := by
  refine ⟨h1.1.trans h2.1, ?_⟩
  rcases h1.2 with h | h
  · rcases h2.2 with h' | h'
    · exact Or.inl (h.trans h')
    · exact Or.inr (h.trans h')
  · exact Or.inr h

lemma vertexLe_refl (v : MCVertex) : vertexLe v v :=
  ⟨rfl, rfl, List.forall₂_same.mpr fun e _ => entryLe_refl e⟩

lemma vertexLe_trans {v'' v' v : MCVertex} (h1 : vertexLe v'' v')
    (h2 : vertexLe v' v) : vertexLe v'' v := by
  refine ⟨h1.1.trans h2.1, h1.2.1.trans h2.2.1, forall₂_trans_of ?_ h1.2.2 h2.2.2⟩
  exact fun _ _ _ hab hbc => entryLe_trans hab hbc

lemma forall₂_vertexLe_getD {verts' verts : List MCVertex}
    (h : List.Forall₂ vertexLe verts' verts) (i : ℕ) :
    vertexLe (verts'.getD i dfltV) (verts.getD i dfltV) := by
  induction h generalizing i with
  | nil => exact vertexLe_refl _
  | cons hr _ ih =>
    cases i with
    | zero => simpa using hr
    | succ i => simpa using ih i

lemma hw_of_le {verts' verts : List MCVertex}
    (hv : List.Forall₂ vertexLe verts' verts)
    (hw : ∀ v ∈ verts, 0 ≤ v.weight) :
    ∀ v' ∈ verts', 0 ≤ v'.weight := by
  intro v' hv'
  obtain ⟨v, hvm, hle⟩ := forall₂_exists_of_mem_left hv hv'
  rw [hle.1]
  exact hw v hvm

lemma getD_weight_nonneg {verts : List MCVertex}
    (hw : ∀ v ∈ verts, 0 ≤ v.weight) (i : ℕ) :
    0 ≤ (verts.getD i dfltV).weight := by
  by_cases h : i < verts.length
  · rw [List.getD_eq_getElem _ _ h]
    exact hw _ (List.getElem_mem h)
  · rw [List.getD_eq_default _ _ (le_of_not_lt h)]
    norm_num [dfltV]

lemma entriesFold_le_acc (w : ℚ) (scores : List ℚ)
    (es : List (Option ℕ × ℚ)) :
    ∀ acc : ℚ × Option ℕ, acc.1 ≤ (entriesFold w scores acc es).1 := by
  induction es with
  | nil => intro acc; exact le_refl _
  | cons e rest ih =>
    intro acc
    obtain ⟨e1, c⟩ := e
    cases e1 with
    | none => rw [entriesFold]; exact ih acc
    | some j =>
      rw [entriesFold]
      split_ifs with h
      · exact le_trans (le_of_lt h) (ih _)
      · exact ih acc

lemma entriesFold_prev (w : ℚ) (scores : List ℚ)
    (es : List (Option ℕ × ℚ)) :
    ∀ (acc : ℚ × Option ℕ) (j : ℕ),
      (entriesFold w scores acc es).2 = some j →
      acc.2 = some j ∨ ∃ c, ((some j : Option ℕ), c) ∈ es := by
  induction es with
  | nil => intro acc j h; exact Or.inl h
  | cons e rest ih =>
    intro acc j h
    obtain ⟨e1, c⟩ := e
    cases e1 with
    | none =>
      rw [entriesFold] at h
      rcases ih acc j h with h' | ⟨c', hc⟩
      · exact Or.inl h'
      · exact Or.inr ⟨c', List.mem_cons_of_mem _ hc⟩
    | some j' =>
      rw [entriesFold] at h
      split_ifs at h with hlt
      · rcases ih _ j h with h' | ⟨c', hc⟩
        · have hj : j' = j := Option.some_inj.mp h'
          subst hj
          exact Or.inr ⟨c, List.mem_cons_self _ _⟩
        · exact Or.inr ⟨c', List.mem_cons_of_mem _ hc⟩
      · rcases ih acc j h with h' | ⟨c', hc⟩
        · exact Or.inl h'
        · exact Or.inr ⟨c', List.mem_cons_of_mem _ hc⟩

lemma entriesFold_mono (w : ℚ) (scores scores' : List ℚ)
    (hs : ∀ j, scores'.getD j 0 ≤ scores.getD j 0) :
    ∀ {es' es : List (Option ℕ × ℚ)}, List.Forall₂ entryLe es' es →
    ∀ (acc' acc : ℚ × Option ℕ), acc'.1 ≤ acc.1 →
    (entriesFold w scores' acc' es').1 ≤ (entriesFold w scores acc es).1 := by
  intro es' es hes
  induction hes with
  | nil => intro acc' acc h; exact h
  | cons hr _ ih =>
    rename_i a' a l' l _
    intro acc' acc hacc
    obtain ⟨a1', c'⟩ := a'
    obtain ⟨a1, c⟩ := a
    obtain ⟨hc, h1⟩ := hr
    simp only at hc
    subst hc
    rcases h1 with h1 | h1
    · simp only at h1
      subst h1
      cases a1' with
      | none =>
        rw [entriesFold, entriesFold]
        exact ih acc' acc hacc
      | some j =>
        rw [entriesFold, entriesFold]
        have hj := hs j
        split_ifs with hA hB hB
        · exact ih _ _ (by simp only; linarith)
        · exact ih _ _ (by simp only; linarith)
        · exact ih _ _ (by simp only; linarith)
        · exact ih acc' acc hacc
    · simp only at h1
      subst h1
      rw [entriesFold]
      cases a1 with
      | none =>
        rw [entriesFold]
        exact ih acc' acc hacc
      | some j =>
        rw [entriesFold]
        split_ifs with hA
        · exact ih _ _ (by simp only; linarith)
        · exact ih acc' acc hacc

lemma scorePassAux_length (verts : List MCVertex) (exclude : List ℕ) :
    ∀ (is : List ℕ) (scores : List ℚ) (prevs : List (Option ℕ)),
      (scorePassAux verts exclude is scores prevs).1.length = scores.length
      ∧ (scorePassAux verts exclude is scores prevs).2.length = prevs.length := by
  intro is
  induction is with
  | nil => intro scores prevs; exact ⟨rfl, rfl⟩
  | cons i rest ih =>
    intro scores prevs
    rw [scorePassAux]
    split_ifs with h
    · exact ih scores prevs
    · dsimp only
      constructor
      · rw [(ih _ _).1, List.length_set]
      · rw [(ih _ _).2, List.length_set]

lemma scorePass_length (verts : List MCVertex) (exclude : List ℕ) :
    (scorePass verts exclude).1.length = verts.length
    ∧ (scorePass verts exclude).2.length = verts.length := by
  rw [scorePass]
  have := scorePassAux_length verts exclude (List.range verts.length)
    (List.replicate verts.length 0) (List.replicate verts.length none)
  simpa using this

lemma scorePassAux_excluded (verts : List MCVertex) (exclude : List ℕ) :
    ∀ (is : List ℕ) (scores : List ℚ) (prevs : List (Option ℕ)) (a : ℕ),
      a ∈ exclude → scores.getD a 0 = 0 →
      (scorePassAux verts exclude is scores prevs).1.getD a 0 = 0 := by
  intro is
  induction is with
  | nil => intro scores prevs a _ h0; exact h0
  | cons i rest ih =>
    intro scores prevs a ha h0
    rw [scorePassAux]
    split_ifs with h
    · exact ih scores prevs a ha h0
    · refine ih _ _ a ha ?_
      rw [set_getD]
      split_ifs with hc
      · exact absurd (hc.1 ▸ ha) h
      · exact h0

lemma scorePass_excluded (verts : List MCVertex) (exclude : List ℕ)
    (a : ℕ) (ha : a ∈ exclude) :
    (scorePass verts exclude).1.getD a 0 = 0 := by
  rw [scorePass]
  exact scorePassAux_excluded verts exclude _ _ _ a ha (replicate_getD _ _ _)

lemma scorePassAux_prev_prov (verts : List MCVertex) (exclude : List ℕ) :
    ∀ (is : List ℕ) (scores : List ℚ) (prevs : List (Option ℕ)),
      (∀ a b, prevs.getD a none = some b →
        ∃ c, ((some b : Option ℕ), c) ∈ (verts.getD a dfltV).prev_cost) →
      ∀ a b, (scorePassAux verts exclude is scores prevs).2.getD a none = some b →
        ∃ c, ((some b : Option ℕ), c) ∈ (verts.getD a dfltV).prev_cost := by
  intro is
  induction is with
  | nil => intro scores prevs hp a b h; exact hp a b h
  | cons i rest ih =>
    intro scores prevs hp a b h
    rw [scorePassAux] at h
    split_ifs at h with hie
    · exact ih scores prevs hp a b h
    · refine ih _ _ ?_ a b h
      intro a' b' h'
      rw [set_getD] at h'
      split_ifs at h' with hc
      · rcases entriesFold_prev _ _ _ _ _ h' with h'' | ⟨c, hc'⟩
        · cases h''
        · exact ⟨c, hc.1 ▸ hc'⟩
      · exact hp a' b' h'

lemma scorePass_prev_prov (verts : List MCVertex) (exclude : List ℕ)
    (a b : ℕ) (h : (scorePass verts exclude).2.getD a none = some b) :
    ∃ c, ((some b : Option ℕ), c) ∈ (verts.getD a dfltV).prev_cost := by
  rw [scorePass] at h
  refine scorePassAux_prev_prov verts exclude _ _ _ ?_ a b h
  intro a' b' h'
  rw [replicate_getD] at h'
  cases h'

lemma scorePassAux_mono (verts' verts : List MCVertex) (exclude' exclude : List ℕ)
    (hv : List.Forall₂ vertexLe verts' verts)
    (hx : ∀ a ∈ exclude, a ∈ exclude')
    (hw : ∀ v ∈ verts, 0 ≤ v.weight) :
    ∀ (is : List ℕ), is.Nodup →
    ∀ (scores' scores : List ℚ) (prevs' prevs : List (Option ℕ)),
      scores'.length = scores.length →
      (∀ j, scores'.getD j 0 ≤ scores.getD j 0) →
      (∀ j ∈ is, scores'.getD j 0 = 0) →
      ∀ j, (scorePassAux verts' exclude' is scores' prevs').1.getD j 0
        ≤ (scorePassAux verts exclude is scores prevs).1.getD j 0 := by
  intro is
  induction is with
  | nil => intro _ scores' scores prevs' prevs _ hle _ j; exact hle j
  | cons i rest ih =>
    intro hnd scores' scores prevs' prevs hlen hle hzero j
    have hndr : rest.Nodup := hnd.of_cons
    have hnir : i ∉ rest := (List.nodup_cons.mp hnd).1
    rw [scorePassAux, scorePassAux]
    have hvi := forall₂_vertexLe_getD hv i
    by_cases hie : i ∈ exclude
    · rw [if_pos hie, if_pos (hx _ hie)]
      exact ih hndr scores' scores prevs' prevs hlen hle
        (fun j' hj' => hzero j' (List.mem_cons_of_mem _ hj')) j
    · by_cases hie' : i ∈ exclude'
      · rw [if_neg hie, if_pos hie']
        refine ih hndr scores' _ prevs' _ (by simpa using hlen) ?_
          (fun j' hj' => hzero j' (List.mem_cons_of_mem _ hj')) j
        intro j'
        rw [set_getD]
        split_ifs with hc
        · rw [hc.1, hzero i (List.mem_cons_self _ _)]
          exact le_trans (getD_weight_nonneg hw i)
            (entriesFold_le_acc _ _ _ _)
        · exact hle j'
      · rw [if_neg hie, if_neg hie']
        refine ih hndr _ _ _ _ (by simpa using hlen) ?_ ?_ j
        · intro j'
          rw [set_getD, set_getD, hlen]
          split_ifs with hc
          · rw [hvi.1]
            exact entriesFold_mono _ _ _ hle hvi.2.2 _ _ (le_refl _)
          · exact hle j'
        · intro j' hj'
          rw [set_getD]
          split_ifs with hc
          · exact absurd (hc.1 ▸ hj') hnir
          · exact hzero j' (List.mem_cons_of_mem _ hj')

lemma scorePass_mono {verts' verts : List MCVertex} {exclude' exclude : List ℕ}
    (hv : List.Forall₂ vertexLe verts' verts)
    (hx : ∀ a ∈ exclude, a ∈ exclude')
    (hw : ∀ v ∈ verts, 0 ≤ v.weight) :
    ∀ j, (scorePass verts' exclude').1.getD j 0
      ≤ (scorePass verts exclude).1.getD j 0 := by
  intro j
  rw [scorePass, scorePass, hv.length_eq]
  refine scorePassAux_mono verts' verts exclude' exclude hv hx hw
    (List.range verts.length) (List.nodup_range _) _ _ _ _ (by simp) ?_ ?_ j
  · intro j'
    simp [replicate_getD]
  · intro j' _
    simp [replicate_getD]

lemma maxGo_val : ∀ (l : List ℚ) (i : ℕ) (acc : ℕ × ℚ),
    (maxGo l i acc).2 = l.foldl max acc.2 := by
  intro l
  induction l with
  | nil => intro i acc; rfl
  | cons s rest ih =>
    intro i acc
    rw [maxGo, List.foldl_cons]
    split_ifs with h
    · rw [ih]
      congr 1
      exact (max_eq_right (le_of_lt h)).symm
    · rw [ih]
      congr 1
      exact (max_eq_left (not_lt.mp h)).symm

lemma foldl_max_mono : ∀ {l' l : List ℚ}, List.Forall₂ (· ≤ ·) l' l →
    ∀ {a' a : ℚ}, a' ≤ a → l'.foldl max a' ≤ l.foldl max a := by
  intro l' l h
  induction h with
  | nil => intro a' a h; exact h
  | cons hr _ ih => intro a' a ha; exact ih (max_le_max ha hr)

lemma maxGo_mem : ∀ (l : List ℚ) (i : ℕ) (acc : ℕ × ℚ),
    maxGo l i acc = acc
    ∨ ∃ k, k < l.length ∧ maxGo l i acc = (i + k, l.getD k 0) := by
  intro l
  induction l with
  | nil => intro i acc; exact Or.inl rfl
  | cons s rest ih =>
    intro i acc
    rw [maxGo]
    split_ifs with h
    · rcases ih (i + 1) (i, s) with h' | ⟨k, hk, h'⟩
      · refine Or.inr ⟨0, by simp, ?_⟩
        rw [h']
        simp
      · refine Or.inr ⟨k + 1, by simpa using hk, ?_⟩
        rw [h']
        simp only [List.getD_cons_succ]
        congr 1
        omega
    · rcases ih (i + 1) acc with h' | ⟨k, hk, h'⟩
      · exact Or.inl h'
      · refine Or.inr ⟨k + 1, by simpa using hk, ?_⟩
        rw [h']
        simp only [List.getD_cons_succ]
        congr 1
        omega

lemma maxVertex_getD {scores : List ℚ} {m : ℕ × ℚ}
    (h : maxVertex scores = some m) : scores.getD m.1 0 = m.2 := by
  cases scores with
  | nil => cases h
  | cons s rest =>
    rw [maxVertex] at h
    have hm : m = maxGo rest 1 (0, s) := (Option.some_inj.mp h).symm
    rcases maxGo_mem rest 1 (0, s) with h' | ⟨k, hk, h'⟩
    · rw [hm, h']
      simp
    · rw [hm, h']
      simp only
      rw [show 1 + k = k + 1 by omega, List.getD_cons_succ]

/-- The score the next traceback iteration would report: the per-pass
maximum vertex score, or zero on an empty model. -/
def msVal (verts : List MCVertex) (exclude : List ℕ) : ℚ :=
  match maxVertex (scorePass verts exclude).1 with
  | none => 0
  | some m => m.2

lemma forall₂_le_of_getD {l' l : List ℚ} (hlen : l'.length = l.length)
    (h : ∀ j, l'.getD j 0 ≤ l.getD j 0) : List.Forall₂ (· ≤ ·) l' l := by
  rw [List.forall₂_iff_get]
  refine ⟨hlen, fun i h1 h2 => ?_⟩
  have := h i
  rw [List.getD_eq_getElem _ _ h1, List.getD_eq_getElem _ _ h2] at this
  simpa using this

lemma msVal_mono {verts' verts : List MCVertex} {exclude' exclude : List ℕ}
    (hv : List.Forall₂ vertexLe verts' verts)
    (hx : ∀ a ∈ exclude, a ∈ exclude')
    (hw : ∀ v ∈ verts, 0 ≤ v.weight) :
    msVal verts' exclude' ≤ msVal verts exclude := by
  have hlen : (scorePass verts' exclude').1.length = (scorePass verts exclude).1.length := by
    rw [(scorePass_length verts' exclude').1, (scorePass_length verts exclude).1,
      hv.length_eq]
  have hall : List.Forall₂ (· ≤ ·) (scorePass verts' exclude').1
      (scorePass verts exclude).1 :=
    forall₂_le_of_getD hlen (scorePass_mono hv hx hw)
  cases hp : (scorePass verts exclude).1 with
  | nil =>
    have h2 : (scorePass verts' exclude').1 = [] := by
      rw [hp] at hlen
      exact List.eq_nil_of_length_eq_zero hlen
    simp only [msVal, h2, hp, maxVertex]
    exact le_refl 0
  | cons a t =>
    cases hp' : (scorePass verts' exclude').1 with
    | nil =>
      rw [hp, hp'] at hlen
      simp at hlen
    | cons a' t' =>
      rw [hp, hp'] at hall
      cases hall with
      | cons ha ht =>
        simp only [msVal, hp, hp', maxVertex]
        rw [maxGo_val, maxGo_val]
        exact foldl_max_mono ht ha

lemma walkPrev_adj (prevs : List (Option ℕ)) :
    ∀ (fuel : ℕ) (i : ℕ) (p : ℕ × ℕ), p ∈ adjPairs (walkPrev prevs fuel i) →
      prevs.getD p.1 none = some p.2 := by
  intro fuel
  induction fuel with
  | zero => intro i p hp; cases hp
  | succ fuel ih =>
    intro i p hp
    cases hg : prevs.getD i none with
    | none =>
      simp only [walkPrev, hg] at hp
      cases hp
    | some j =>
      simp only [walkPrev, hg] at hp
      cases fuel with
      | zero => cases hp
      | succ f =>
        cases hg2 : prevs.getD j none with
        | none =>
          simp only [walkPrev, hg2, adjPairs] at hp
          rcases List.mem_singleton.mp hp with rfl
          exact hg
        | some j2 =>
          simp only [walkPrev, hg2, adjPairs] at hp
          rcases List.mem_cons.mp hp with rfl | hp'
          · exact hg
          · have hw2 : walkPrev prevs (f + 1) j = j :: walkPrev prevs f j2 := by
              simp only [walkPrev, hg2]
            rw [← hw2] at hp'
            exact ih j p hp'

lemma walkPrev_ne_nil (prevs : List (Option ℕ)) (fuel i : ℕ) :
    walkPrev prevs (fuel + 1) i ≠ [] := by
  cases hg : prevs.getD i none <;> simp only [walkPrev, hg] <;> simp

lemma walkPrev_headD (prevs : List (Option ℕ)) (fuel i : ℕ) :
    (walkPrev prevs (fuel + 1) i).headD 0 = i := by
  cases hg : prevs.getD i none <;> simp only [walkPrev, hg] <;> rfl

lemma walkPrev_singleton {prevs : List (Option ℕ)} {fuel i : ℕ}
    (h : (walkPrev prevs (fuel + 1) i).length = 1) :
    walkPrev prevs (fuel + 1) i = [i] := by
  cases hg : prevs.getD i none with
  | none => simp only [walkPrev, hg]
  | some j =>
    cases fuel with
    | zero => simp only [walkPrev, hg]
    | succ f =>
      exfalso
      have hw2 : walkPrev prevs (f + 1 + 1) i = i :: walkPrev prevs (f + 1) j := by
        simp only [walkPrev, hg]
      rw [hw2, List.length_cons] at h
      have hlen0 : (walkPrev prevs (f + 1) j).length = 0 := by omega
      exact absurd (List.eq_nil_of_length_eq_zero hlen0) (walkPrev_ne_nil prevs f j)

lemma adjPairs_fst_lt {prevs : List (Option ℕ)} {fuel i : ℕ} {p : ℕ × ℕ}
    (hp : p ∈ adjPairs (walkPrev prevs fuel i)) : p.1 < prevs.length := by
  have h := walkPrev_adj prevs fuel i p hp
  by_contra hlt
  rw [List.getD_eq_default _ _ (le_of_not_lt hlt)] at h
  cases h

lemma maskEntry_le (pred : ℕ) (paired : Bool) (chain : List ℕ) (frags : ℕ → ℕ)
    (vfrag : ℕ) (e : Option ℕ × ℚ) :
    entryLe (maskEntry pred paired chain frags vfrag e) e := by
  obtain ⟨e1, c⟩ := e
  cases e1 with
  | none => exact entryLe_refl _
  | some u =>
    rw [maskEntry]
    split_ifs with h1 h2
    · exact ⟨rfl, Or.inr rfl⟩
    · exact ⟨rfl, Or.inr rfl⟩
    · exact entryLe_refl _

lemma maskEntry_ne_pred (pred : ℕ) (paired : Bool) (chain : List ℕ)
    (frags : ℕ → ℕ) (vfrag : ℕ) (e : Option ℕ × ℚ) :
    (maskEntry pred paired chain frags vfrag e).1 ≠ some pred := by
  obtain ⟨e1, c⟩ := e
  cases e1 with
  | none => simp [maskEntry]
  | some u =>
    rw [maskEntry]
    split_ifs with h1 h2
    · simp
    · simp
    · simpa using h1

lemma forall₂_set_left {R : MCVertex → MCVertex → Prop} (hrefl : ∀ v, R v v) :
    ∀ (l : List MCVertex) (a : ℕ) (v' : MCVertex),
      (∀ v, l[a]? = some v → R v' v) → List.Forall₂ R (l.set a v') l := by
  intro l
  induction l with
  | nil => intro a v' _; exact List.Forall₂.nil
  | cons x l ih =>
    intro a v' hr
    cases a with
    | zero =>
      exact List.Forall₂.cons (hr x (by simp))
        (List.forall₂_same.mpr fun v _ => hrefl v)
    | succ a =>
      exact List.Forall₂.cons (hrefl x) (ih a v' (fun v hv => hr v (by simpa using hv)))

lemma applyMask_le (paired : Bool) (chain : List ℕ) (verts : List MCVertex)
    (a pred : ℕ) :
    List.Forall₂ vertexLe (applyMask paired chain verts a pred) verts := by
  rw [applyMask]
  cases hv : verts[a]? with
  | none => exact List.forall₂_same.mpr fun v _ => vertexLe_refl v
  | some v =>
    refine forall₂_set_left vertexLe_refl verts a _ ?_
    intro w hw
    rw [hv] at hw
    cases Option.some_inj.mp hw
    refine ⟨rfl, rfl, ?_⟩
    rw [List.forall₂_map_left_iff]
    exact List.forall₂_same.mpr fun e _ => maskEntry_le _ _ _ _ _ e

lemma applyMask_length (paired : Bool) (chain : List ℕ) (verts : List MCVertex)
    (a pred : ℕ) :
    (applyMask paired chain verts a pred).length = verts.length := by
  rw [applyMask]
  cases verts[a]? <;> simp

lemma maskTrace_le (paired : Bool) (chain : List ℕ) :
    ∀ (prs : List (ℕ × ℕ)) (verts : List MCVertex),
      List.Forall₂ vertexLe (maskTrace paired chain verts prs) verts := by
  intro prs
  induction prs with
  | nil =>
    intro verts
    exact List.forall₂_same.mpr fun v _ => vertexLe_refl v
  | cons q rest ih =>
    intro verts
    rw [maskTrace]
    refine forall₂_trans_of ?_ (ih _) (applyMask_le paired chain verts q.1 q.2)
    exact fun _ _ _ hab hbc => vertexLe_trans hab hbc

lemma maskTrace_length (paired : Bool) (chain : List ℕ)
    (prs : List (ℕ × ℕ)) (verts : List MCVertex) :
    (maskTrace paired chain verts prs).length = verts.length :=
  (maskTrace_le paired chain prs verts).length_eq

/-- The transition `p.2 → p.1` has no live entry left in the `prev_cost`
list of vertex `p.1`. -/
def edgeDead (verts : List MCVertex) (p : ℕ × ℕ) : Prop :=
  ∀ e ∈ (verts.getD p.1 dfltV).prev_cost, e.1 ≠ some p.2

lemma edgeDead_mono {verts' verts : List MCVertex}
    (hv : List.Forall₂ vertexLe verts' verts) {p : ℕ × ℕ}
    (hd : edgeDead verts p) : edgeDead verts' p := by
  intro e' he'
  have hvle := forall₂_vertexLe_getD hv p.1
  obtain ⟨e, he, hee⟩ := forall₂_exists_of_mem_left hvle.2.2 he'
  rcases hee.2 with h1 | h1
  · rw [h1]
    exact hd e he
  · rw [h1]
    simp

lemma applyMask_kills (paired : Bool) (chain : List ℕ) (verts : List MCVertex)
    (a pred : ℕ) (ha : a < verts.length) :
    edgeDead (applyMask paired chain verts a pred) (a, pred) := by
  intro e he
  have h1 : verts[a]? = some verts[a] := List.getElem?_eq_getElem ha
  simp only [applyMask, h1] at he
  rw [set_getD, if_pos ⟨rfl, ha⟩] at he
  obtain ⟨e0, _, rfl⟩ := List.mem_map.mp he
  exact maskEntry_ne_pred _ _ _ _ _ e0

lemma maskTrace_kills (paired : Bool) (chain : List ℕ) :
    ∀ (prs : List (ℕ × ℕ)) (verts : List MCVertex),
      (∀ p ∈ prs, p.1 < verts.length) →
      ∀ p ∈ prs, edgeDead (maskTrace paired chain verts prs) p := by
  intro prs
  induction prs with
  | nil => intro verts _ p hp; cases hp
  | cons q rest ih =>
    intro verts hlt p hp
    rw [maskTrace]
    rcases List.mem_cons.mp hp with rfl | hp'
    · have hql : p.1 < verts.length := hlt p (List.mem_cons_self _ _)
      have hk := applyMask_kills paired chain verts p.1 p.2 hql
      have : edgeDead (applyMask paired chain verts p.1 p.2) p := by
        obtain ⟨p1, p2⟩ := p
        exact hk
      exact edgeDead_mono (maskTrace_le paired chain rest _) this
    · refine ih _ ?_ p hp'
      intro q' hq'
      rw [applyMask_length]
      exact hlt q' (List.mem_cons_of_mem _ hq')

lemma tracebackGo_succ_none {paired : Bool} {k : ℕ} {verts : List MCVertex}
    {exclude : List ℕ} (hm : maxVertex (scorePass verts exclude).1 = none) :
    tracebackGo paired (k + 1) verts exclude = [] := by
  simp only [tracebackGo, hm]

lemma tracebackGo_succ_zero {paired : Bool} {k : ℕ} {verts : List MCVertex}
    {exclude : List ℕ} {m : ℕ × ℚ}
    (hm : maxVertex (scorePass verts exclude).1 = some m) (hz : m.2 = 0) :
    tracebackGo paired (k + 1) verts exclude = [] := by
  simp only [tracebackGo, hm]
  rw [if_pos hz]

lemma tracebackGo_succ_eq {paired : Bool} {k : ℕ} {verts : List MCVertex}
    {exclude : List ℕ} {m : ℕ × ℚ}
    (hm : maxVertex (scorePass verts exclude).1 = some m) (hz : m.2 ≠ 0) :
    tracebackGo paired (k + 1) verts exclude =
      (walkPrev (scorePass verts exclude).2 verts.length m.1, m.2) ::
        tracebackGo paired k
          (maskTrace paired (walkPrev (scorePass verts exclude).2 verts.length m.1)
            verts (adjPairs (walkPrev (scorePass verts exclude).2 verts.length m.1)))
          (if paired then
            (if (walkPrev (scorePass verts exclude).2 verts.length m.1).length = 1
             then m.1 :: exclude else exclude)
           else (walkPrev (scorePass verts exclude).2 verts.length m.1) ++ exclude) := by
  simp only [tracebackGo, hm]
  rw [if_neg hz]

lemma exclude_sub_step (paired : Bool) (ch : List ℕ) (m1 : ℕ) (exclude : List ℕ) :
    ∀ a ∈ exclude,
      a ∈ (if paired then (if ch.length = 1 then m1 :: exclude else exclude)
           else ch ++ exclude) := by
  intro a ha
  split_ifs
  · exact List.mem_cons_of_mem _ ha
  · exact ha
  · exact List.mem_append_right _ ha

lemma tracebackGo_length_le (paired : Bool) :
    ∀ (k : ℕ) (verts : List MCVertex) (exclude : List ℕ),
      (tracebackGo paired k verts exclude).length ≤ k := by
  intro k
  induction k with
  | zero => intro verts exclude; simp [tracebackGo]
  | succ k ih =>
    intro verts exclude
    cases hm : maxVertex (scorePass verts exclude).1 with
    | none =>
      rw [tracebackGo_succ_none hm]
      simp
    | some m =>
      by_cases hz : m.2 = 0
      · rw [tracebackGo_succ_zero hm hz]
        simp
      · rw [tracebackGo_succ_eq hm hz, List.length_cons]
        exact Nat.succ_le_succ (ih _ _)

lemma tracebackGo_nonzero (paired : Bool) :
    ∀ (k : ℕ) (verts : List MCVertex) (exclude : List ℕ),
      ∀ t ∈ tracebackGo paired k verts exclude, t.2 ≠ 0 := by
  intro k
  induction k with
  | zero => intro verts exclude t ht; simp [tracebackGo] at ht
  | succ k ih =>
    intro verts exclude t ht
    cases hm : maxVertex (scorePass verts exclude).1 with
    | none =>
      rw [tracebackGo_succ_none hm] at ht
      cases ht
    | some m =>
      by_cases hz : m.2 = 0
      · rw [tracebackGo_succ_zero hm hz] at ht
        cases ht
      · rw [tracebackGo_succ_eq hm hz] at ht
        rcases List.mem_cons.mp ht with rfl | ht'
        · exact hz
        · exact ih _ _ t ht'

lemma tracebackGo_head_msVal {paired : Bool} :
    ∀ {k : ℕ} {verts : List MCVertex} {exclude : List ℕ} {t : List ℕ × ℚ}
      {rest : List (List ℕ × ℚ)},
      tracebackGo paired k verts exclude = t :: rest → t.2 = msVal verts exclude := by
  intro k verts exclude t rest h
  cases k with
  | zero => exact absurd h (by simp [tracebackGo])
  | succ k =>
    cases hm : maxVertex (scorePass verts exclude).1 with
    | none =>
      rw [tracebackGo_succ_none hm] at h
      cases h
    | some m =>
      by_cases hz : m.2 = 0
      · rw [tracebackGo_succ_zero hm hz] at h
        cases h
      · rw [tracebackGo_succ_eq hm hz] at h
        injection h with h1 _
        rw [← h1]
        simp [msVal, hm]

lemma tracebackGo_sorted (paired : Bool) :
    ∀ (k : ℕ) (verts : List MCVertex) (exclude : List ℕ),
      (∀ v ∈ verts, 0 ≤ v.weight) →
      List.Chain' (fun a b : List ℕ × ℚ => b.2 ≤ a.2)
        (tracebackGo paired k verts exclude) := by
  intro k
  induction k with
  | zero => intro verts exclude _; simp [tracebackGo]
  | succ k ih =>
    intro verts exclude hw
    cases hm : maxVertex (scorePass verts exclude).1 with
    | none =>
      rw [tracebackGo_succ_none hm]
      simp
    | some m =>
      by_cases hz : m.2 = 0
      · rw [tracebackGo_succ_zero hm hz]
        simp
      · rw [tracebackGo_succ_eq hm hz, List.chain'_cons']
        set ch := walkPrev (scorePass verts exclude).2 verts.length m.1 with hch
        set verts2 := maskTrace paired ch verts (adjPairs ch) with hverts2
        set ex2 := (if paired then (if ch.length = 1 then m.1 :: exclude else exclude)
          else ch ++ exclude) with hex2
        constructor
        · intro y hy
          cases hrest : tracebackGo paired k verts2 ex2 with
          | nil =>
            rw [hrest] at hy
            cases hy
          | cons t2 r2 =>
            rw [hrest] at hy
            have hy2 : y = t2 := by have := hy; simp at this; exact this.symm
            have ht2 : t2.2 = msVal verts2 ex2 := tracebackGo_head_msVal hrest
            have hmono : msVal verts2 ex2 ≤ msVal verts exclude := by
              refine msVal_mono ?_ ?_ hw
              · rw [hverts2]
                exact maskTrace_le paired ch (adjPairs ch) verts
              · rw [hex2]
                exact exclude_sub_step paired ch m.1 exclude
            have hms : msVal verts exclude = m.2 := by simp [msVal, hm]
            rw [hy2, ht2]
            exact le_trans hmono (le_of_eq hms)
        · refine ih verts2 ex2 ?_
          rw [hverts2]
          exact hw_of_le (maskTrace_le paired ch (adjPairs ch) verts) hw

lemma tracebackGo_avoid (paired : Bool) :
    ∀ (k : ℕ) (verts : List MCVertex) (exclude : List ℕ) (p : ℕ × ℕ),
      edgeDead verts p →
      ∀ t ∈ tracebackGo paired k verts exclude, p ∉ adjPairs t.1 := by
  intro k
  induction k with
  | zero => intro verts exclude p _ t ht; simp [tracebackGo] at ht
  | succ k ih =>
    intro verts exclude p hd t ht
    cases hm : maxVertex (scorePass verts exclude).1 with
    | none =>
      rw [tracebackGo_succ_none hm] at ht
      cases ht
    | some m =>
      by_cases hz : m.2 = 0
      · rw [tracebackGo_succ_zero hm hz] at ht
        cases ht
      · rw [tracebackGo_succ_eq hm hz] at ht
        rcases List.mem_cons.mp ht with rfl | ht'
        · intro hp
          have hp' : p ∈ adjPairs (walkPrev (scorePass verts exclude).2 verts.length m.1) := hp
          have hadj := walkPrev_adj (scorePass verts exclude).2 verts.length m.1 p hp'
          obtain ⟨c, hc⟩ := scorePass_prev_prov verts exclude p.1 p.2 hadj
          exact hd _ hc rfl
        · exact ih _ _ p (edgeDead_mono (maskTrace_le _ _ _ _) hd) t ht'

lemma tracebackGo_edges_pairwise (paired : Bool) :
    ∀ (k : ℕ) (verts : List MCVertex) (exclude : List ℕ),
      List.Pairwise (fun t1 t2 : List ℕ × ℚ => ∀ p ∈ adjPairs t1.1, p ∉ adjPairs t2.1)
        (tracebackGo paired k verts exclude) := by
  intro k
  induction k with
  | zero => intro verts exclude; simp [tracebackGo]
  | succ k ih =>
    intro verts exclude
    cases hm : maxVertex (scorePass verts exclude).1 with
    | none =>
      rw [tracebackGo_succ_none hm]
      simp
    | some m =>
      by_cases hz : m.2 = 0
      · rw [tracebackGo_succ_zero hm hz]
        simp
      · rw [tracebackGo_succ_eq hm hz]
        refine List.Pairwise.cons ?_ (ih _ _)
        intro t2 ht2 p hp
        have hp' : p ∈ adjPairs (walkPrev (scorePass verts exclude).2 verts.length m.1) := hp
        have hdead : edgeDead
            (maskTrace paired (walkPrev (scorePass verts exclude).2 verts.length m.1)
              verts (adjPairs (walkPrev (scorePass verts exclude).2 verts.length m.1))) p := by
          refine maskTrace_kills paired _ _ verts ?_ p hp'
          intro q hq
          have hql := adjPairs_fst_lt hq
          rwa [(scorePass_length verts exclude).2] at hql
        exact tracebackGo_avoid paired k _ _ p hdead t2 ht2

lemma tracebackGo_excluded_head (paired : Bool) :
    ∀ (k : ℕ) (verts : List MCVertex) (exclude : List ℕ) (v : ℕ), v ∈ exclude →
      ∀ t ∈ tracebackGo paired k verts exclude, t.1.headD 0 ≠ v := by
  intro k
  induction k with
  | zero => intro verts exclude v _ t ht; simp [tracebackGo] at ht
  | succ k ih =>
    intro verts exclude v hv t ht
    cases hm : maxVertex (scorePass verts exclude).1 with
    | none =>
      rw [tracebackGo_succ_none hm] at ht
      cases ht
    | some m =>
      by_cases hz : m.2 = 0
      · rw [tracebackGo_succ_zero hm hz] at ht
        cases ht
      · rw [tracebackGo_succ_eq hm hz] at ht
        rcases List.mem_cons.mp ht with rfl | ht'
        · cases hn : verts.length with
          | zero =>
            exfalso
            have h0 : (scorePass verts exclude).1.length = 0 := by
              rw [(scorePass_length verts exclude).1, hn]
            rw [List.eq_nil_of_length_eq_zero h0] at hm
            simp [maxVertex] at hm
          | succ n =>
            intro hhead
            have hhead' : (walkPrev (scorePass verts exclude).2 (n + 1) m.1).headD 0 = v :=
              hhead
            rw [walkPrev_headD] at hhead'
            have hs1 : (scorePass verts exclude).1.getD m.1 0 = m.2 := maxVertex_getD hm
            have hs0 : (scorePass verts exclude).1.getD v 0 = 0 :=
              scorePass_excluded verts exclude v hv
            rw [← hhead'] at hs0
            exact hz (by rw [← hs1, hs0])
        · refine ih _ _ v ?_ t ht'
          exact exclude_sub_step paired _ m.1 exclude v hv

lemma tracebackGo_singleton_pairwise (paired : Bool) :
    ∀ (k : ℕ) (verts : List MCVertex) (exclude : List ℕ),
      List.Pairwise
        (fun t1 t2 : List ℕ × ℚ => paired = true → t1.1.length = 1 → t2.1.headD 0 ∉ t1.1)
        (tracebackGo paired k verts exclude) := by
  intro k
  induction k with
  | zero => intro verts exclude; simp [tracebackGo]
  | succ k ih =>
    intro verts exclude
    cases hm : maxVertex (scorePass verts exclude).1 with
    | none =>
      rw [tracebackGo_succ_none hm]
      simp
    | some m =>
      by_cases hz : m.2 = 0
      · rw [tracebackGo_succ_zero hm hz]
        simp
      · rw [tracebackGo_succ_eq hm hz]
        refine List.Pairwise.cons ?_ (ih _ _)
        intro t2 ht2 hpaired hlen1
        cases hn : verts.length with
        | zero =>
          exfalso
          have h0 : (scorePass verts exclude).1.length = 0 := by
            rw [(scorePass_length verts exclude).1, hn]
          rw [List.eq_nil_of_length_eq_zero h0] at hm
          simp [maxVertex] at hm
        | succ n =>
          have hl : (walkPrev (scorePass verts exclude).2 verts.length m.1).length = 1 :=
            hlen1
          have hch1 : walkPrev (scorePass verts exclude).2 verts.length m.1 = [m.1] := by
            rw [hn] at hl ⊢
            exact walkPrev_singleton hl
          have hex : (if paired then
              (if (walkPrev (scorePass verts exclude).2 verts.length m.1).length = 1
               then m.1 :: exclude else exclude)
             else (walkPrev (scorePass verts exclude).2 verts.length m.1) ++ exclude)
              = m.1 :: exclude := by
            rw [hpaired]
            simp only [if_true]
            rw [if_pos hl]
          have hne := tracebackGo_excluded_head paired k _ _ m.1
            (by rw [hex]; exact List.mem_cons_self _ _) t2 ht2
          intro hmem
          have hmem' : t2.1.headD 0 ∈ walkPrev (scorePass verts exclude).2 verts.length m.1 := by
            rw [hn]
            exact hmem
          rw [hch1] at hmem'
          exact hne (List.mem_singleton.mp hmem')

/-- Two isolated vertices of equal weight 5: the model for the C7
counterexample. -/
def demoVerts : List MCVertex := [⟨5, 0, []⟩, ⟨5, 0, []⟩]

/-- C7 counterexample: on a model of two edge-less vertices of equal
weight 5, `traceback(2, paired=false)` emits two traces whose head scores
are 5 and 5 — the claim's *strictly* descending score order fails (the
order is only non-increasing). -/
theorem mapper_C7_counterexample :
    traceback demoVerts 2 false = [([0], 5), ([1], 5)]
    ∧ ¬ List.Chain' (fun a b : List ℕ × ℚ => b.2 < a.2)
        (traceback demoVerts 2 false) := by
  constructor
  · rfl
  · intro h
    rw [show traceback demoVerts 2 false = [([0], 5), ([1], 5)] from rfl] at h
    exact absurd (List.chain'_pair.mp h) (lt_irrefl (5 : ℚ))

/-- C7 (amended): for every chain model with non-negative vertex weights
and every `alt_alns = K`, `MEMChainModel::traceback(K, paired)` yields at
most `K` vertex traces in NON-INCREASING (not strictly descending) head
score order; it stops before emitting any trace whose maximum vertex
score is zero; no transition (`prev_cost` edge) consumed by one trace is
ever consumed again by a later trace; and in paired mode the vertex of a
singleton trace is excluded, so it can never head a later trace. -/
theorem mapper_C7_traceback (verts : List MCVertex) (K : ℕ) (paired : Bool)
    (hw : ∀ v ∈ verts, 0 ≤ v.weight) :
    List.Chain' (fun a b : List ℕ × ℚ => b.2 ≤ a.2) (traceback verts K paired)
    ∧ (traceback verts K paired).length ≤ K
    ∧ (∀ t ∈ traceback verts K paired, t.2 ≠ 0)
    ∧ List.Pairwise (fun t1 t2 => ∀ p ∈ adjPairs t1.1, p ∉ adjPairs t2.1)
        (traceback verts K paired)
    ∧ List.Pairwise
        (fun t1 t2 => paired = true → t1.1.length = 1 → t2.1.headD 0 ∉ t1.1)
        (traceback verts K paired) :=
  ⟨tracebackGo_sorted paired K verts [] hw, tracebackGo_length_le paired K verts [],
    tracebackGo_nonzero paired K verts [], tracebackGo_edges_pairwise paired K verts [],
    tracebackGo_singleton_pairwise paired K verts []⟩

/-- C7 witness: the amended traceback theorem instantiated at the concrete
two-vertex demo model, with the non-negative-weight hypothesis discharged
by evaluation. -/
theorem mapper_C7_witness :
    (∀ v ∈ demoVerts, 0 ≤ v.weight)
    ∧ (List.Chain' (fun a b : List ℕ × ℚ => b.2 ≤ a.2) (traceback demoVerts 2 false)
      ∧ (traceback demoVerts 2 false).length ≤ 2
      ∧ (∀ t ∈ traceback demoVerts 2 false, t.2 ≠ 0)
      ∧ List.Pairwise (fun t1 t2 => ∀ p ∈ adjPairs t1.1, p ∉ adjPairs t2.1)
          (traceback demoVerts 2 false)
      ∧ List.Pairwise
          (fun t1 t2 => false = true → t1.1.length = 1 → t2.1.headD 0 ∉ t1.1)
          (traceback demoVerts 2 false)) :=
  ⟨by decide, mapper_C7_traceback demoVerts 2 false (by decide)⟩

end Vg
